import Mathlib

/-! Coin selection of `types/coin.go` (coming-chat/go-sui)

A shallow embedding of `Coins.TotalBalance`, `Coins.PickCoinNoLess`,
`Coins.PickCoins` and `Coins.PickSUICoinsWithGas`, followed by the properties
proved about them.

Conventions of the embedding

* A Go slice is a `List`; the nil slice and the empty slice are both `[]`
  (`len`, `range` and `append` do not tell them apart).
* A `decimal.Decimal` balance is integer valued (the specification's balance is
  an arbitrary-precision integer), so a balance is an `Int`, `Balance.BigInt()`
  is the balance itself and `LessThan`, `GreaterThan`, `GreaterThanOrEqual` are
  the order of `Int`. Negative values are representable, as they are in the Go
  type.
* `*big.Int` is `Int`; `uint64` is a `Nat` (below `2 ^ 64` where that matters);
  the Go `int` of `pickMethod` is an `Int`.
* A Go `error` result is an `Option Error`, `none` being the nil error.
-/

namespace GoSui

/-! ## Data model -/

/-- Modelled from the spec: the `ObjectId` type is declared in another file of
the package; the spec calls it "a unique object identity" that selection never
inspects. -/
abbrev ObjectId := Nat

/-- Modelled from the spec: the `TransactionDigest` type is declared in another
file of the package; the spec calls it "a content digest" that travels
opaquely. -/
abbrev TransactionDigest := Nat

/-- The `Coin` struct. -/
structure Coin where
  CoinType : String
  CoinObjectId : ObjectId
  Version : Int
  Digest : TransactionDigest
  Balance : Int
  LockedUntilEpoch : Option Int
  PreviousTransaction : TransactionDigest
deriving DecidableEq

/-- The slice type `Coins`. -/
abbrev Coins := List Coin

/-- The error values of the file: the two package-level singletons set up by
`init`, and the values built by `errors.New` at a return site. -/
inductive Error where
  | ErrCoinsNotMatchRequest
  | ErrCoinsNeedMoreObject
  | New (text : String)
deriving DecidableEq

/-- Constant `PickSmaller = iota`. -/
def PickSmaller : Int := 0

/-- Constant `PickBigger`. -/
def PickBigger : Int := 1

/-- Constant `PickByOrder`. -/
def PickByOrder : Int := 2

/-- The method `(*big.Int).Uint64`: the low 64 bits of the magnitude of `x` (the
value itself when it fits a `uint64`). -/
def uint64 (x : Int) : Nat := x.natAbs % 2 ^ 64

/-! ## `sort.Slice` -/

/-- One run of the inner loop of `insertionSort_func` (Go, `sort/zsortfunc.go`):
`for j := i; j > a && less(data[j], data[j-1]); j-- { swap(j, j-1) }`.
The sorted part `data[a:i]` is held back to front, so its head is `data[j-1]`;
the moving element `x` passes every predecessor `y` with `less x y` and stops at
the first one without. The result is again back to front. -/
def insertLeft (less : Coin → Coin → Bool) (x : Coin) : List Coin → List Coin
  | [] => [x]
  | y :: ys => if less x y then y :: insertLeft less x ys else x :: y :: ys

/-- The outer loop of `insertionSort_func`, `for i := a + 1; i < b; i++`, with the
already sorted part `done` held back to front. -/
def insertionLoop (less : Coin → Coin → Bool) : List Coin → List Coin → List Coin
  | done, [] => done.reverse
  | done, x :: rest => insertionLoop less (insertLeft less x done) rest

/-- The function `insertionSort_func` on a whole slice. -/
def insertionSortFunc (less : Coin → Coin → Bool) (data : List Coin) : List Coin :=
  insertionLoop less [] data

/-- The call `sort.Slice(x, less)` of Go's standard library (Go 1.19 and later):
`pdqsort_func` sorts a slice of at most `maxInsertion = 12` elements by
`insertionSort_func`. What it does to a longer slice (pivot selection,
partitioning, heap sort) is not embedded: it is the parameter `pdqsort`. -/
def sortSlice (pdqsort : (Coin → Coin → Bool) → List Coin → List Coin)
    (less : Coin → Coin → Bool) (data : List Coin) : List Coin :=
  if data.length ≤ 12 then insertionSortFunc less data else pdqsort less data

/-! ## The methods of `Coins` -/

/-- The method `Coins.TotalBalance`: the loop adds each balance to `total`. -/
def TotalBalance (cs : Coins) : Int :=
  cs.foldl (fun total coin => total + coin.Balance) 0

/-- The comparator closure handed to `sort.Slice` by `PickCoins`: `LessThan` under
`PickSmaller`, `GreaterThanOrEqual` under every other method. -/
def pickLess (pickMethod : Int) (a b : Coin) : Bool :=
  if pickMethod = PickSmaller then decide (a.Balance < b.Balance)
  else decide (a.Balance ≥ b.Balance)

/-- The accumulation loop of `PickCoins`: append the coin to `result`, add its
balance to `total`, return as soon as `total.Cmp(amount) >= 0`; falling off the
end returns `nil, ErrCoinsNeedMoreObject`. -/
def pickLoop (amount : Int) : Coins → Int → Coins → Coins × Option Error
  | _, _, [] => ([], some Error.ErrCoinsNeedMoreObject)
  | result, total, coin :: rest =>
    if total + coin.Balance ≥ amount then (result ++ [coin], none)
    else pickLoop amount (result ++ [coin]) (total + coin.Balance) rest

/-- The local `sortedCoins` of `PickCoins`, its working order: the receiver itself
under `PickByOrder`, a sorted copy under every other method. -/
def sortedCoins (pdqsort : (Coin → Coin → Bool) → List Coin → List Coin)
    (cs : Coins) (pickMethod : Int) : Coins :=
  if pickMethod = PickByOrder then cs
  else sortSlice pdqsort (pickLess pickMethod) cs

/-- The method `Coins.PickCoins`. -/
def PickCoins (pdqsort : (Coin → Coin → Bool) → List Coin → List Coin)
    (cs : Coins) (amount : Int) (pickMethod : Int) : Coins × Option Error :=
  pickLoop amount [] 0 (sortedCoins pdqsort cs pickMethod)

/-- The gas coin search of `PickSUICoinsWithGas` (`for i := range cs`): the state
is the pair of locals `(gasCoin, selectIndex)`, `i` the index of the head of the
coins still to visit. -/
def gasLoop (gasAmount : Nat) : Coins → Nat → Option Coin × Nat → Option Coin × Nat
  | [], _, st => st
  | c :: rest, i, (gasCoin, selectIndex) =>
    if uint64 c.Balance < gasAmount then gasLoop gasAmount rest (i + 1) (gasCoin, selectIndex)
    else
      match gasCoin with
      | none => gasLoop gasAmount rest (i + 1) (some c, i)
      | some g =>
        if g.Balance > c.Balance then gasLoop gasAmount rest (i + 1) (some c, i)
        else gasLoop gasAmount rest (i + 1) (some g, selectIndex)

/-- The method `Coins.PickSUICoinsWithGas`; the result is
`(pickCoins, gasCoin, err)`. -/
def PickSUICoinsWithGas (pdqsort : (Coin → Coin → Bool) → List Coin → List Coin)
    (cs : Coins) (amount : Int) (gasAmount : Nat) (pickMethod : Int) :
    Coins × Option Coin × Option Error :=
  if gasAmount = 0 then
    let r := PickCoins pdqsort cs amount pickMethod
    (r.1, none, r.2)
  else if amount = 0 ∧ gasAmount = 0 then ([], none, none)
  else if cs.length = 0 then (cs, none, some Error.ErrCoinsNeedMoreObject)
  else
    match gasLoop gasAmount cs 0 (none, 0) with
    | (none, _) => ([], none, some Error.ErrCoinsNotMatchRequest)
    | (some gasCoin, selectIndex) =>
      let lastCoins := cs.take selectIndex ++ cs.drop (selectIndex + 1)
      let r := PickCoins pdqsort lastCoins amount pickMethod
      (r.1, some gasCoin, r.2)

/-- The loop of `PickCoinNoLess` (`for i, coin := range cs`): the first coin with
`coin.Balance.BigInt().Uint64() >= amount` together with its index, `i` being the
index of the head of the coins still to visit; `none` when the loop runs to its
end. -/
def noLessLoop (amount : Nat) : Coins → Nat → Option (Coin × Nat)
  | [], _ => none
  | coin :: rest, i =>
    if uint64 coin.Balance ≥ amount then some (coin, i) else noLessLoop amount rest (i + 1)

/-- The method `Coins.PickCoinNoLess`. The result is `(coin, err, backing)`: the two
values returned, and the elements of the receiver as the caller sees them after the
call. On a match at index `i`, `append(cs[:i], cs[i+1:]...)` writes in place: the
coins after `i` move one position down and the last position keeps its coin; only
the local slice header gets shorter. The returned pointer is to the loop variable,
a copy of `cs[i]` taken before the move. -/
def PickCoinNoLess (cs : Coins) (amount : Nat) : Option Coin × Option Error × Coins :=
  match noLessLoop amount cs 0 with
  | some (coin, i) =>
    (some coin, none, cs.take i ++ cs.drop (i + 1) ++ cs.drop (cs.length - 1))
  | none =>
    if cs.length ≤ 3 then (none, some (Error.New "insufficient balance"), cs)
    else (none, some (Error.New "no coin is enough to cover the gas"), cs)

/-- A coin of the SUI type with the given object id and balance, the other fields
fixed; used to write concrete collections. -/
def mkCoin (id : Nat) (balance : Int) : Coin :=
  { CoinType := "0x2::sui::SUI", CoinObjectId := id, Version := 1, Digest := 0,
    Balance := balance, LockedUntilEpoch := none, PreviousTransaction := 0 }

/-- What `sort.Slice` leaves between an earlier element `a` and a later element
`b` of its output: `a` sorts before `b`, or at least `b` does not sort before `a`.
For `LessThan` this is `a ≤ b`, for `GreaterThanOrEqual` it is `a ≥ b`. -/
def inOrder (less : Coin → Coin → Bool) (a b : Coin) : Prop :=
  less a b = true ∨ less b a = false

/-- The long-slice part of `sort.Slice` only moves elements: on a slice of more
than 12 elements its output is a permutation of its input. -/
def PermutesInput (pdqsort : (Coin → Coin → Bool) → List Coin → List Coin) : Prop :=
  ∀ less l, 12 < l.length → (pdqsort less l).Perm l

/-- The long-slice part of `sort.Slice` orders a slice of more than 12 elements
whenever `less` is, in the words of the `sort` package, a transitive ordering:
`less` is transitive and so is its negation. -/
def OrdersInput (pdqsort : (Coin → Coin → Bool) → List Coin → List Coin) : Prop :=
  ∀ less l, 12 < l.length →
    (∀ a b c, less a b = true → less b c = true → less a c = true) →
    (∀ a b c, less a b = false → less b c = false → less a c = false) →
    (pdqsort less l).Pairwise (inOrder less)

/-- A coin passes the filter of the gas coin search: the loop does not `continue`
on it. -/
def passesGasFilter (gasAmount : Nat) (c : Coin) : Prop := gasAmount ≤ uint64 c.Balance

/-- The test that lets the gas coin search replace its current choice by a coin
of balance `b`: there is no choice yet, or the chosen balance is greater. -/
def improves (st : Option Coin × Nat) (b : Int) : Prop :=
  match st.1 with
  | none => True
  | some g => b < g.Balance

/-- The input balances sorted ascending. -/
def balancesAscending (cs : Coins) : List Int :=
  (cs.map Coin.Balance).insertionSort (fun a b => a ≤ b)

/-- The input balances sorted descending. -/
def balancesDescending (cs : Coins) : List Int :=
  (cs.map Coin.Balance).insertionSort (fun a b => a ≥ b)

/-- Follows the spec's words, "stable-sort descending-or-equal by balance (ties keep
encounter order among equal balances)": each coin is placed in front of the first
coin, among those that followed it in the input, whose balance is not greater. -/
def stableSortDescending (cs : Coins) : Coins :=
  cs.insertionSort (fun a b => a.Balance ≥ b.Balance)

/-- The sum of the balances of a list of coins. -/
def balanceSum (l : Coins) : Int := (l.map Coin.Balance).sum

/-! ## The accumulation loop -/

theorem balanceSum_nil : balanceSum [] = 0 := rfl

theorem balanceSum_cons (c : Coin) (l : Coins) :
    balanceSum (c :: l) = c.Balance + balanceSum l := by
  simp [balanceSum]

theorem balanceSum_append (l₁ l₂ : Coins) :
    balanceSum (l₁ ++ l₂) = balanceSum l₁ + balanceSum l₂ := by
  simp [balanceSum]

theorem balanceSum_perm {l₁ l₂ : Coins} (h : l₁.Perm l₂) : balanceSum l₁ = balanceSum l₂ := by
  unfold balanceSum
  exact (h.map Coin.Balance).sum_eq

theorem balanceSum_nonneg {l : Coins} (h : ∀ c ∈ l, 0 ≤ c.Balance) : 0 ≤ balanceSum l := by
  induction l with
  | nil => simp [balanceSum]
  | cons c l ih =>
    rw [balanceSum_cons]
    have h1 := h c (List.mem_cons_self c l)
    have h2 := ih (fun d hd => h d (List.mem_cons_of_mem c hd))
    omega

/-- The loop either succeeds or returns exactly `nil, ErrCoinsNeedMoreObject`. -/
theorem pickLoop_cases (amount : Int) (l : Coins) : ∀ (result : Coins) (total : Int),
    (pickLoop amount result total l).2 = none ∨
      pickLoop amount result total l = ([], some Error.ErrCoinsNeedMoreObject) := by
  induction l with
  | nil => intro result total; right; rfl
  | cons c rest ih =>
    intro result total
    unfold pickLoop
    split
    · left; rfl
    · exact ih _ _

/-- A successful loop returns `result` extended by the shortest non-empty prefix
of the remaining coins that lifts the running total to `amount`. -/
theorem pickLoop_ok (amount : Int) (l : Coins) : ∀ (result : Coins) (total : Int),
    (pickLoop amount result total l).2 = none →
    ∃ k, 0 < k ∧ k ≤ l.length ∧
      (pickLoop amount result total l).1 = result ++ l.take k ∧
      amount ≤ total + balanceSum (l.take k) ∧
      ∀ j, 0 < j → j < k → total + balanceSum (l.take j) < amount := by
  induction l with
  | nil => intro result total h; simp [pickLoop] at h
  | cons c rest ih =>
    intro result total h
    unfold pickLoop at h ⊢
    by_cases hc : total + c.Balance ≥ amount
    · rw [if_pos hc]
      refine ⟨1, Nat.one_pos, by simp, by simp, ?_, ?_⟩
      · simpa [balanceSum] using hc
      · intro j h0 h1; omega
    · rw [if_neg hc] at h ⊢
      obtain ⟨k, hk0, hkl, hres, hsum, hmin⟩ := ih _ _ h
      refine ⟨k + 1, Nat.succ_pos k, by simpa using hkl, ?_, ?_, ?_⟩
      · rw [hres]; simp
      · rw [List.take_succ_cons, balanceSum_cons]; omega
      · intro j h0 h1
        obtain ⟨j', rfl⟩ : ∃ j', j = j' + 1 := ⟨j - 1, by omega⟩
        rw [List.take_succ_cons, balanceSum_cons]
        by_cases hj : j' = 0
        · subst hj; simp [balanceSum_nil]; omega
        · have := hmin j' (by omega) (by omega)
          omega

/-- A failing loop never saw the running total reach `amount`. -/
theorem pickLoop_fail (amount : Int) (l : Coins) : ∀ (result : Coins) (total : Int),
    (pickLoop amount result total l).2 ≠ none →
    ∀ j, 0 < j → j ≤ l.length → total + balanceSum (l.take j) < amount := by
  induction l with
  | nil => intro result total _ j h0 hj; simp at hj; omega
  | cons c rest ih =>
    intro result total h j h0 hj
    unfold pickLoop at h
    by_cases hc : total + c.Balance ≥ amount
    · rw [if_pos hc] at h; exact absurd rfl h
    · rw [if_neg hc] at h
      obtain ⟨j', rfl⟩ : ∃ j', j = j' + 1 := ⟨j - 1, by omega⟩
      rw [List.take_succ_cons, balanceSum_cons]
      by_cases hj0 : j' = 0
      · subst hj0; simp [balanceSum_nil]; omega
      · have := ih _ _ h j' (by omega) (by simpa using hj)
        omega

/-! ## Insertion sort and `sort.Slice` -/

theorem insertLeft_perm (less : Coin → Coin → Bool) (x : Coin) (l : List Coin) :
    (insertLeft less x l).Perm (x :: l) := by
  induction l with
  | nil => exact List.Perm.refl _
  | cons y ys ih =>
    unfold insertLeft
    split
    · exact (List.Perm.cons y ih).trans (List.Perm.swap x y ys)
    · exact List.Perm.refl _

theorem insertionLoop_perm (less : Coin → Coin → Bool) (rest : List Coin) :
    ∀ done : List Coin, (insertionLoop less done rest).Perm (done ++ rest) := by
  induction rest with
  | nil => intro done; simp [insertionLoop]
  | cons x rest ih =>
    intro done
    unfold insertionLoop
    refine (ih _).trans ?_
    refine ((insertLeft_perm less x done).append_right rest).trans ?_
    simpa using (@List.perm_middle _ x done rest).symm

theorem insertionSortFunc_perm (less : Coin → Coin → Bool) (l : List Coin) :
    (insertionSortFunc less l).Perm l := by
  simpa [insertionSortFunc] using insertionLoop_perm less l []

theorem insertLeft_ordered (less : Coin → Coin → Bool)
    (htrans : ∀ a b c, less a b = true → less b c = true → less a c = true)
    (hneg : ∀ a b c, less a b = false → less b c = false → less a c = false)
    (x : Coin) (l : List Coin) (hl : l.Pairwise (fun a b => inOrder less b a)) :
    (insertLeft less x l).Pairwise (fun a b => inOrder less b a) := by
  induction l with
  | nil => simp [insertLeft]
  | cons y ys ih =>
    rw [List.pairwise_cons] at hl
    unfold insertLeft
    by_cases hxy : less x y = true
    · rw [if_pos hxy, List.pairwise_cons]
      refine ⟨?_, ih hl.2⟩
      intro z hz
      rcases List.mem_cons.1 ((insertLeft_perm less x ys).mem_iff.1 hz) with rfl | hz
      · exact Or.inl hxy
      · exact hl.1 z hz
    · rw [if_neg hxy, List.pairwise_cons]
      have hxy' : less x y = false := by simpa using hxy
      refine ⟨?_, List.pairwise_cons.2 hl⟩
      intro z hz
      rcases List.mem_cons.1 hz with rfl | hz
      · exact Or.inr hxy'
      · by_cases hxz : less x z = true
        · rcases hl.1 z hz with h | h
          · exact absurd (htrans _ _ _ hxz h) hxy
          · exact absurd (hneg _ _ _ hxy' h) (by simp [hxz])
        · exact Or.inr (by simpa using hxz)

theorem insertionLoop_ordered (less : Coin → Coin → Bool)
    (htrans : ∀ a b c, less a b = true → less b c = true → less a c = true)
    (hneg : ∀ a b c, less a b = false → less b c = false → less a c = false)
    (rest : List Coin) : ∀ done : List Coin, done.Pairwise (fun a b => inOrder less b a) →
      (insertionLoop less done rest).Pairwise (inOrder less) := by
  induction rest with
  | nil => intro done h; simpa [insertionLoop, List.pairwise_reverse] using h
  | cons x rest ih =>
    intro done h
    unfold insertionLoop
    exact ih _ (insertLeft_ordered less htrans hneg x done h)

theorem insertionSortFunc_ordered (less : Coin → Coin → Bool)
    (htrans : ∀ a b c, less a b = true → less b c = true → less a c = true)
    (hneg : ∀ a b c, less a b = false → less b c = false → less a c = false)
    (l : List Coin) : (insertionSortFunc less l).Pairwise (inOrder less) :=
  insertionLoop_ordered less htrans hneg l [] List.Pairwise.nil

/-- Insertion sort itself meets both contracts asked of the long-slice sort. -/
theorem insertionSortFunc_permutes : PermutesInput insertionSortFunc :=
  fun less l _ => insertionSortFunc_perm less l

theorem insertionSortFunc_orders : OrdersInput insertionSortFunc :=
  fun less l _ ht hn => insertionSortFunc_ordered less ht hn l

theorem sortSlice_perm {pdqsort : (Coin → Coin → Bool) → List Coin → List Coin}
    (hperm : PermutesInput pdqsort) (less : Coin → Coin → Bool) (l : List Coin) :
    (sortSlice pdqsort less l).Perm l := by
  unfold sortSlice
  split
  · exact insertionSortFunc_perm less l
  · exact hperm less l (by omega)

theorem sortSlice_ordered {pdqsort : (Coin → Coin → Bool) → List Coin → List Coin}
    (hord : OrdersInput pdqsort) (less : Coin → Coin → Bool)
    (htrans : ∀ a b c, less a b = true → less b c = true → less a c = true)
    (hneg : ∀ a b c, less a b = false → less b c = false → less a c = false)
    (l : List Coin) : (sortSlice pdqsort less l).Pairwise (inOrder less) := by
  unfold sortSlice
  split
  · exact insertionSortFunc_ordered less htrans hneg l
  · exact hord less l (by omega) htrans hneg

theorem pickLess_trans (pickMethod : Int) (a b c : Coin)
    (h₁ : pickLess pickMethod a b = true) (h₂ : pickLess pickMethod b c = true) :
    pickLess pickMethod a c = true := by
  unfold pickLess at *
  split <;> simp_all <;> omega

theorem pickLess_negtrans (pickMethod : Int) (a b c : Coin)
    (h₁ : pickLess pickMethod a b = false) (h₂ : pickLess pickMethod b c = false) :
    pickLess pickMethod a c = false := by
  unfold pickLess at *
  split <;> simp_all <;> omega

theorem inOrder_pickSmaller (a b : Coin) :
    inOrder (pickLess PickSmaller) a b ↔ a.Balance ≤ b.Balance := by
  simp [inOrder, pickLess]
  omega

theorem inOrder_pickOther {pickMethod : Int} (h : pickMethod ≠ PickSmaller) (a b : Coin) :
    inOrder (pickLess pickMethod) a b ↔ b.Balance ≤ a.Balance := by
  simp [inOrder, pickLess, h]
  omega

theorem TotalBalance_eq (cs : Coins) : TotalBalance cs = balanceSum cs := by
  have h : ∀ (l : Coins) (t : Int),
      l.foldl (fun total coin => total + coin.Balance) t = t + balanceSum l := by
    intro l
    induction l with
    | nil => intro t; simp [balanceSum]
    | cons c l ih => intro t; rw [List.foldl_cons, ih, balanceSum_cons]; omega
  simpa [TotalBalance] using h cs 0

/-! ## The gas coin search -/

/-- What the search returns from any state: the state it started from, when no
coin that passes the filter improves on it, and otherwise the first coin of least
balance among those passing the filter, with its index. -/
theorem gasLoop_spec (gasAmount : Nat) (l : Coins) : ∀ (i : Nat) (st : Option Coin × Nat),
    ((∀ c ∈ l, passesGasFilter gasAmount c → ¬ improves st c.Balance) ∧
        gasLoop gasAmount l i st = st) ∨
    ∃ k, ∃ hk : k < l.length,
      gasLoop gasAmount l i st = (some l[k], i + k) ∧
      passesGasFilter gasAmount l[k] ∧ improves st l[k].Balance ∧
      (∀ c ∈ l, passesGasFilter gasAmount c → l[k].Balance ≤ c.Balance) ∧
      ∀ j, ∀ hj : j < l.length, j < k → passesGasFilter gasAmount l[j] →
        l[k].Balance < l[j].Balance := by
  induction l with
  | nil => intro i st; left; exact ⟨by simp, by simp [gasLoop]⟩
  | cons c rest ih =>
    intro i st
    obtain ⟨gasCoin, selectIndex⟩ := st
    by_cases hq : uint64 c.Balance < gasAmount
    · -- the loop continues past `c`
      have hstep : gasLoop gasAmount (c :: rest) i (gasCoin, selectIndex) =
          gasLoop gasAmount rest (i + 1) (gasCoin, selectIndex) := by
        simp [gasLoop, hq]
      have hnq : ¬ passesGasFilter gasAmount c := by unfold passesGasFilter; omega
      rcases ih (i + 1) (gasCoin, selectIndex) with ⟨hkeep, hres⟩ | ⟨k, hk, hres, hqk, himp, hmin, hfirst⟩
      · left
        refine ⟨?_, by rw [hstep, hres]⟩
        intro d hd hqd
        rcases List.mem_cons.1 hd with rfl | hd
        · exact absurd hqd hnq
        · exact hkeep d hd hqd
      · right
        refine ⟨k + 1, by simpa using hk, ?_, by simpa using hqk, by simpa using himp, ?_, ?_⟩
        · rw [hstep, hres]; simp; omega
        · intro d hd hqd
          rcases List.mem_cons.1 hd with rfl | hd
          · exact absurd hqd hnq
          · simpa using hmin d hd hqd
        · intro j hj hjk hqj
          cases j with
          | zero => exact absurd (by simpa using hqj) hnq
          | succ j =>
            simpa using hfirst j (by simpa using hj) (by omega) (by simpa using hqj)
    · have hqc : passesGasFilter gasAmount c := by unfold passesGasFilter; omega
      by_cases himpc : improves (gasCoin, selectIndex) c.Balance
      · -- `c` becomes the current choice
        have hstep : gasLoop gasAmount (c :: rest) i (gasCoin, selectIndex) =
            gasLoop gasAmount rest (i + 1) (some c, i) := by
          cases gasCoin with
          | none => simp [gasLoop, hq]
          | some g =>
            have : g.Balance > c.Balance := himpc
            simp [gasLoop, hq, this]
        rcases ih (i + 1) (some c, i) with ⟨hkeep, hres⟩ | ⟨k, hk, hres, hqk, himp, hmin, hfirst⟩
        · right
          refine ⟨0, by simp, by rw [hstep, hres]; simp, by simpa using hqc,
            by simpa using himpc, ?_, ?_⟩
          · intro d hd hqd
            rcases List.mem_cons.1 hd with rfl | hd
            · simp
            · have := hkeep d hd hqd
              simp only [improves] at this
              simp only [List.getElem_cons_zero]
              omega
          · intro j hj hjk; omega
        · right
          have hlt : rest[k].Balance < c.Balance := himp
          refine ⟨k + 1, by simpa using hk, ?_, by simpa using hqk, ?_, ?_, ?_⟩
          · rw [hstep, hres]; simp; omega
          · cases gasCoin with
            | none => simp [improves]
            | some g =>
              have : c.Balance < g.Balance := himpc
              simp only [improves, List.getElem_cons_succ]
              omega
          · intro d hd hqd
            rcases List.mem_cons.1 hd with rfl | hd
            · simp only [List.getElem_cons_succ]; omega
            · simpa using hmin d hd hqd
          · intro j hj hjk hqj
            cases j with
            | zero => simpa using hlt
            | succ j =>
              simpa using hfirst j (by simpa using hj) (by omega) (by simpa using hqj)
      · -- the current choice stays
        have hstep : gasLoop gasAmount (c :: rest) i (gasCoin, selectIndex) =
            gasLoop gasAmount rest (i + 1) (gasCoin, selectIndex) := by
          cases gasCoin with
          | none => exact absurd trivial himpc
          | some g =>
            have : ¬ g.Balance > c.Balance := himpc
            simp [gasLoop, hq, this]
        rcases ih (i + 1) (gasCoin, selectIndex) with ⟨hkeep, hres⟩ | ⟨k, hk, hres, hqk, himp, hmin, hfirst⟩
        · left
          refine ⟨?_, by rw [hstep, hres]⟩
          intro d hd hqd
          rcases List.mem_cons.1 hd with rfl | hd
          · exact himpc
          · exact hkeep d hd hqd
        · right
          have hlt : rest[k].Balance < c.Balance := by
            cases gasCoin with
            | none => exact absurd trivial himpc
            | some g =>
              have h1 : ¬ c.Balance < g.Balance := himpc
              have h2 : rest[k].Balance < g.Balance := himp
              omega
          refine ⟨k + 1, by simpa using hk, ?_, by simpa using hqk, by simpa using himp, ?_, ?_⟩
          · rw [hstep, hres]; simp; omega
          · intro d hd hqd
            rcases List.mem_cons.1 hd with rfl | hd
            · simp only [List.getElem_cons_succ]; omega
            · simpa using hmin d hd hqd
          · intro j hj hjk hqj
            cases j with
            | zero => simpa using hlt
            | succ j =>
              simpa using hfirst j (by simpa using hj) (by omega) (by simpa using hqj)

/-- The search started as the method starts it, with no gas coin chosen. -/
theorem gasLoop_start (gasAmount : Nat) (cs : Coins) :
    ((∀ c ∈ cs, ¬ passesGasFilter gasAmount c) ∧ gasLoop gasAmount cs 0 (none, 0) = (none, 0)) ∨
    ∃ k, ∃ hk : k < cs.length,
      gasLoop gasAmount cs 0 (none, 0) = (some cs[k], k) ∧
      passesGasFilter gasAmount cs[k] ∧
      (∀ c ∈ cs, passesGasFilter gasAmount c → cs[k].Balance ≤ c.Balance) ∧
      ∀ j, ∀ hj : j < cs.length, j < k → passesGasFilter gasAmount cs[j] →
        cs[k].Balance < cs[j].Balance := by
  rcases gasLoop_spec gasAmount cs 0 (none, 0) with ⟨hkeep, hres⟩ | ⟨k, hk, hres, hqk, _, hmin, hfirst⟩
  · left
    exact ⟨fun c hc hq => hkeep c hc hq trivial, hres⟩
  · right
    exact ⟨k, hk, by simpa using hres, hqk, hmin, hfirst⟩

theorem uint64_le_of_nonneg {x : Int} (h : 0 ≤ x) : (uint64 x : Int) ≤ x := by
  unfold uint64
  have h1 : x.natAbs % 2 ^ 64 ≤ x.natAbs := Nat.mod_le _ _
  omega

theorem uint64_eq_of_range {x : Int} (h0 : 0 ≤ x) (h1 : x < 2 ^ 64) : (uint64 x : Int) = x := by
  unfold uint64
  have h2 : x.natAbs < 2 ^ 64 := by omega
  rw [Nat.mod_eq_of_lt h2]
  omega

/-! ## Unfolding `PickSUICoinsWithGas` -/

theorem PickSUICoinsWithGas_found (pdqsort : (Coin → Coin → Bool) → List Coin → List Coin)
    (cs : Coins) (amount : Int) (gasAmount : Nat) (pickMethod : Int)
    (hgas : 0 < gasAmount) (hne : cs ≠ []) (g : Coin) (sel : Nat)
    (h : gasLoop gasAmount cs 0 (none, 0) = (some g, sel)) :
    PickSUICoinsWithGas pdqsort cs amount gasAmount pickMethod =
      ((PickCoins pdqsort (cs.take sel ++ cs.drop (sel + 1)) amount pickMethod).1, some g,
        (PickCoins pdqsort (cs.take sel ++ cs.drop (sel + 1)) amount pickMethod).2) := by
  have h0 : gasAmount ≠ 0 := by omega
  have hl : cs.length ≠ 0 := by simpa using hne
  unfold PickSUICoinsWithGas
  rw [if_neg h0, if_neg (by simp [h0]), if_neg hl, h]

theorem PickSUICoinsWithGas_not_found (pdqsort : (Coin → Coin → Bool) → List Coin → List Coin)
    (cs : Coins) (amount : Int) (gasAmount : Nat) (pickMethod : Int)
    (hgas : 0 < gasAmount) (hne : cs ≠ []) (sel : Nat)
    (h : gasLoop gasAmount cs 0 (none, 0) = (none, sel)) :
    PickSUICoinsWithGas pdqsort cs amount gasAmount pickMethod =
      ([], none, some Error.ErrCoinsNotMatchRequest) := by
  have h0 : gasAmount ≠ 0 := by omega
  have hl : cs.length ≠ 0 := by simpa using hne
  unfold PickSUICoinsWithGas
  rw [if_neg h0, if_neg (by simp [h0]), if_neg hl, h]

theorem PickSUICoinsWithGas_empty (pdqsort : (Coin → Coin → Bool) → List Coin → List Coin)
    (amount : Int) (gasAmount : Nat) (pickMethod : Int) (hgas : 0 < gasAmount) :
    PickSUICoinsWithGas pdqsort [] amount gasAmount pickMethod =
      ([], none, some Error.ErrCoinsNeedMoreObject) := by
  have h0 : gasAmount ≠ 0 := by omega
  unfold PickSUICoinsWithGas
  rw [if_neg h0, if_neg (by simp [h0])]
  simp

/-! ## Facts about `PickCoins` shared by the results below -/

theorem PickCoins_ok_sum (pdqsort : (Coin → Coin → Bool) → List Coin → List Coin)
    (cs : Coins) (amount pickMethod : Int)
    (h : (PickCoins pdqsort cs amount pickMethod).2 = none) :
    amount ≤ balanceSum (PickCoins pdqsort cs amount pickMethod).1 := by
  unfold PickCoins at h ⊢
  obtain ⟨k, _, _, hres, hsum, _⟩ := pickLoop_ok amount _ [] 0 h
  rw [hres]
  simpa using hsum

theorem sortedCoins_perm {pdqsort : (Coin → Coin → Bool) → List Coin → List Coin}
    (hperm : PermutesInput pdqsort) (cs : Coins) (pickMethod : Int) :
    (sortedCoins pdqsort cs pickMethod).Perm cs := by
  unfold sortedCoins
  split
  · exact List.Perm.refl _
  · exact sortSlice_perm hperm _ cs

/-- The result of `PickCoins` is a prefix of the working order. -/
theorem PickCoins_isPrefix_sortedCoins (pdqsort : (Coin → Coin → Bool) → List Coin → List Coin)
    (cs : Coins) (amount pickMethod : Int) :
    (PickCoins pdqsort cs amount pickMethod).1 <+: sortedCoins pdqsort cs pickMethod := by
  unfold PickCoins
  rcases pickLoop_cases amount (sortedCoins pdqsort cs pickMethod) [] 0 with h | h
  · obtain ⟨k, _, _, hres, _, _⟩ := pickLoop_ok amount _ [] 0 h
    rw [hres]
    simpa using List.take_prefix k _
  · rw [h]
    exact List.nil_prefix

theorem PickCoins_subperm {pdqsort : (Coin → Coin → Bool) → List Coin → List Coin}
    (hperm : PermutesInput pdqsort) (cs : Coins) (amount pickMethod : Int) :
    (PickCoins pdqsort cs amount pickMethod).1.Subperm cs :=
  (PickCoins_isPrefix_sortedCoins pdqsort cs amount pickMethod).sublist.subperm.trans
    (sortedCoins_perm hperm cs pickMethod).subperm

theorem balanceSum_take_le {l : Coins} (h : ∀ c ∈ l, 0 ≤ c.Balance) (k : Nat) :
    balanceSum (l.take k) ≤ balanceSum l := by
  have h1 : balanceSum l = balanceSum (l.take k) + balanceSum (l.drop k) := by
    rw [← balanceSum_append, List.take_append_drop]
  have h2 : 0 ≤ balanceSum (l.drop k) :=
    balanceSum_nonneg (fun c hc => h c (List.mem_of_mem_drop hc))
  omega

/-- With non-negative balances and a positive amount, `PickCoins` fails exactly when
the amount exceeds the sum of all balances. -/
theorem PickCoins_fails_iff {pdqsort : (Coin → Coin → Bool) → List Coin → List Coin}
    (hperm : PermutesInput pdqsort) (cs : Coins) (amount pickMethod : Int)
    (hbal : ∀ c ∈ cs, 0 ≤ c.Balance) (hamount : 0 < amount) :
    (PickCoins pdqsort cs amount pickMethod).2 ≠ none ↔ balanceSum cs < amount := by
  have hp := sortedCoins_perm hperm cs pickMethod
  have hsum := balanceSum_perm hp
  have hnn : ∀ c ∈ sortedCoins pdqsort cs pickMethod, 0 ≤ c.Balance :=
    fun c hc => hbal c (hp.mem_iff.1 hc)
  unfold PickCoins
  constructor
  · intro h
    by_cases hlen : (sortedCoins pdqsort cs pickMethod).length = 0
    · have : sortedCoins pdqsort cs pickMethod = [] := List.length_eq_zero.1 hlen
      rw [this, balanceSum_nil] at hsum
      omega
    · have := pickLoop_fail amount _ [] 0 h _ (Nat.pos_of_ne_zero hlen) (Nat.le_refl _)
      rw [List.take_length] at this
      omega
  · intro h hok
    obtain ⟨k, _, _, _, hge, _⟩ := pickLoop_ok amount _ [] 0 hok
    have := balanceSum_take_le hnn k
    omega

theorem passesGasFilter_iff_of_range (gasAmount : Nat) {c : Coin}
    (h0 : 0 ≤ c.Balance) (h1 : c.Balance < 2 ^ 64) :
    passesGasFilter gasAmount c ↔ (gasAmount : Int) ≤ c.Balance := by
  have := uint64_eq_of_range h0 h1
  unfold passesGasFilter
  omega

/-- Taking position `k` out of a list and putting its coin in front is a
permutation of the list. -/
theorem perm_cons_take_drop (cs : Coins) (k : Nat) (hk : k < cs.length) :
    (cs[k] :: (cs.take k ++ cs.drop (k + 1))).Perm cs := by
  have h : cs = cs.take k ++ cs[k] :: cs.drop (k + 1) := by
    rw [List.getElem_cons_drop, List.take_append_drop]
  exact (List.perm_middle.symm).trans (List.Perm.of_eq h.symm)

theorem PickSmaller_ne_PickByOrder : PickSmaller ≠ PickByOrder := by decide

theorem PickBigger_ne_PickByOrder : PickBigger ≠ PickByOrder := by decide

theorem PickBigger_ne_PickSmaller : PickBigger ≠ PickSmaller := by decide

theorem sortedCoins_ascending {pdqsort : (Coin → Coin → Bool) → List Coin → List Coin}
    (hord : OrdersInput pdqsort) (cs : Coins) :
    (sortedCoins pdqsort cs PickSmaller).Pairwise (fun a b => a.Balance ≤ b.Balance) := by
  unfold sortedCoins
  rw [if_neg PickSmaller_ne_PickByOrder]
  exact (sortSlice_ordered hord _ (pickLess_trans _) (pickLess_negtrans _) cs).imp
    (fun {a b} h => (inOrder_pickSmaller a b).1 h)

theorem sortedCoins_descending {pdqsort : (Coin → Coin → Bool) → List Coin → List Coin}
    (hord : OrdersInput pdqsort) (cs : Coins) :
    (sortedCoins pdqsort cs PickBigger).Pairwise (fun a b => a.Balance ≥ b.Balance) := by
  unfold sortedCoins
  rw [if_neg PickBigger_ne_PickByOrder]
  exact (sortSlice_ordered hord _ (pickLess_trans _) (pickLess_negtrans _) cs).imp
    (fun {a b} h => (inOrder_pickOther PickBigger_ne_PickSmaller a b).1 h)

/-- Under `PickSmaller` the balances of the working order are the input balances
sorted ascending. -/
theorem sortedCoins_balances_ascending
    {pdqsort : (Coin → Coin → Bool) → List Coin → List Coin}
    (hperm : PermutesInput pdqsort) (hord : OrdersInput pdqsort) (cs : Coins) :
    (sortedCoins pdqsort cs PickSmaller).map Coin.Balance = balancesAscending cs := by
  have hs : ((sortedCoins pdqsort cs PickSmaller).map Coin.Balance).Sorted (fun a b => a ≤ b) :=
    List.pairwise_map.2 (sortedCoins_ascending hord cs)
  have hp : ((sortedCoins pdqsort cs PickSmaller).map Coin.Balance).Perm (balancesAscending cs) :=
    ((sortedCoins_perm hperm cs PickSmaller).map Coin.Balance).trans
      (List.perm_insertionSort _ _).symm
  exact List.eq_of_perm_of_sorted hp hs (List.sorted_insertionSort _ _)

/-- Under `PickBigger` the balances of the working order are the input balances
sorted descending. -/
theorem sortedCoins_balances_descending
    {pdqsort : (Coin → Coin → Bool) → List Coin → List Coin}
    (hperm : PermutesInput pdqsort) (hord : OrdersInput pdqsort) (cs : Coins) :
    (sortedCoins pdqsort cs PickBigger).map Coin.Balance = balancesDescending cs := by
  have hs : ((sortedCoins pdqsort cs PickBigger).map Coin.Balance).Sorted (fun a b => a ≥ b) :=
    List.pairwise_map.2 (sortedCoins_descending hord cs)
  have hp : ((sortedCoins pdqsort cs PickBigger).map Coin.Balance).Perm (balancesDescending cs) :=
    ((sortedCoins_perm hperm cs PickBigger).map Coin.Balance).trans
      (List.perm_insertionSort _ _).symm
  exact List.eq_of_perm_of_sorted hp hs (List.sorted_insertionSort _ _)

/-- A successful `PickCoins` returns the shortest non-empty prefix of the working
order whose balances sum to at least `amount`. -/
theorem PickCoins_shortest_take (pdqsort : (Coin → Coin → Bool) → List Coin → List Coin)
    (cs : Coins) (amount pickMethod : Int)
    (h : (PickCoins pdqsort cs amount pickMethod).2 = none) :
    ∃ k, 0 < k ∧ k ≤ (sortedCoins pdqsort cs pickMethod).length ∧
      (PickCoins pdqsort cs amount pickMethod).1 = (sortedCoins pdqsort cs pickMethod).take k ∧
      amount ≤ balanceSum ((sortedCoins pdqsort cs pickMethod).take k) ∧
      ∀ j, 0 < j → j < k → balanceSum ((sortedCoins pdqsort cs pickMethod).take j) < amount := by
  unfold PickCoins at h ⊢
  obtain ⟨k, hk0, hkl, hres, hsum, hmin⟩ := pickLoop_ok amount _ [] 0 h
  refine ⟨k, hk0, hkl, by simpa using hres, by simpa using hsum, ?_⟩
  intro j h0 hj
  simpa using hmin j h0 hj

theorem balanceSum_take_eq (l : Coins) (k : Nat) :
    balanceSum (l.take k) = ((l.map Coin.Balance).take k).sum := by
  simp [balanceSum, List.map_take]

/-- Under `PickBigger`, an amount that the largest balance reaches is met by the
first coin of the working order alone, and that coin carries the largest balance. -/
theorem PickBigger_single_coin {pdqsort : (Coin → Coin → Bool) → List Coin → List Coin}
    (hperm : PermutesInput pdqsort) (hord : OrdersInput pdqsort) (cs : Coins) (amount m : Int)
    (hm : m ∈ cs.map Coin.Balance) (hmax : ∀ b ∈ cs.map Coin.Balance, b ≤ m)
    (hge : amount ≤ m) :
    ∃ c, c ∈ cs ∧ c.Balance = m ∧ PickCoins pdqsort cs amount PickBigger = ([c], none) := by
  have hp := sortedCoins_perm hperm cs PickBigger
  have hd := sortedCoins_descending hord cs
  obtain ⟨d, hdcs, hdm⟩ := List.mem_map.1 hm
  have hdw : d ∈ sortedCoins pdqsort cs PickBigger := hp.mem_iff.2 hdcs
  unfold PickCoins
  cases hw : sortedCoins pdqsort cs PickBigger with
  | nil => rw [hw] at hdw; simp at hdw
  | cons c₀ rest =>
    rw [hw] at hdw hd hp
    have hc₀ : c₀ ∈ cs := hp.mem_iff.1 (List.mem_cons_self c₀ rest)
    have hle : c₀.Balance ≤ m := hmax _ (List.mem_map.2 ⟨c₀, hc₀, rfl⟩)
    have hge₀ : m ≤ c₀.Balance := by
      rcases List.mem_cons.1 hdw with rfl | hr
      · omega
      · have := (List.pairwise_cons.1 hd).1 d hr
        omega
    refine ⟨c₀, hc₀, by omega, ?_⟩
    have h0 : 0 + c₀.Balance ≥ amount := by omega
    unfold pickLoop
    rw [if_pos h0]
    rfl

theorem insertionSortFunc_pair_of_less (less : Coin → Coin → Bool) (a b : Coin)
    (h : less b a = true) : insertionSortFunc less [a, b] = [b, a] := by
  simp [insertionSortFunc, insertionLoop, insertLeft, h]

/-! ## Removing one coin from a selection -/

theorem balanceSum_eraseIdx (l : Coins) (i : Nat) (hi : i < l.length) :
    balanceSum (l.eraseIdx i) = balanceSum l - l[i].Balance := by
  have h := balanceSum_perm (perm_cons_take_drop l i hi)
  rw [balanceSum_cons] at h
  rw [List.eraseIdx_eq_take_drop_succ]
  omega

theorem balanceSum_take_succ (w : Coins) (k : Nat) (hk : k < w.length) :
    balanceSum (w.take (k + 1)) = balanceSum (w.take k) + w[k].Balance := by
  rw [← List.take_concat_get w k hk, List.concat_eq_append, balanceSum_append]
  simp [balanceSum]

/-- In the shortest non-empty initial segment of `w` that reaches a positive
`amount`, a coin whose balance is at least that of the last coin cannot be left
out. -/
theorem shortest_take_eraseIdx_lt (w : Coins) (amount : Int) (k : Nat)
    (hamount : 0 < amount) (hk : k < w.length)
    (hmin : ∀ j, 0 < j → j < k + 1 → balanceSum (w.take j) < amount)
    (i : Nat) (hi : i < (w.take (k + 1)).length)
    (hge : w[k].Balance ≤ (w.take (k + 1))[i].Balance) :
    balanceSum ((w.take (k + 1)).eraseIdx i) < amount := by
  rw [balanceSum_eraseIdx _ i hi, balanceSum_take_succ w k hk]
  have hbefore : balanceSum (w.take k) < amount := by
    by_cases h0 : k = 0
    · subst h0; simpa [balanceSum] using hamount
    · exact hmin k (by omega) (by omega)
  omega

/-- After a successful `PickCoins` for a positive amount, removing a returned coin
whose balance is at least that of the last returned coin leaves less than the
amount. -/
theorem PickCoins_eraseIdx_lt (pdqsort : (Coin → Coin → Bool) → List Coin → List Coin)
    (cs : Coins) (amount pickMethod : Int) (hamount : 0 < amount)
    (h : (PickCoins pdqsort cs amount pickMethod).2 = none) :
    ∃ last, (PickCoins pdqsort cs amount pickMethod).1.getLast? = some last ∧
      ∀ i, ∀ hi : i < (PickCoins pdqsort cs amount pickMethod).1.length,
        last.Balance ≤ ((PickCoins pdqsort cs amount pickMethod).1)[i].Balance →
        balanceSum ((PickCoins pdqsort cs amount pickMethod).1.eraseIdx i) < amount := by
  obtain ⟨k, hk0, hkl, hres, _, hmin⟩ := PickCoins_shortest_take pdqsort cs amount pickMethod h
  obtain ⟨k, rfl⟩ : ∃ k', k = k' + 1 := ⟨k - 1, by omega⟩
  have hk : k < (sortedCoins pdqsort cs pickMethod).length := by omega
  refine ⟨(sortedCoins pdqsort cs pickMethod)[k], ?_, ?_⟩
  · have e := List.take_concat_get (sortedCoins pdqsort cs pickMethod) k hk
    rw [List.concat_eq_append] at e
    rw [hres, ← e]
    exact List.getLast?_concat _
  · rw [hres]
    intro i hi hge
    exact shortest_take_eraseIdx_lt _ amount k hamount hk hmin i hi hge

/-- In a list of non-increasing balances every coin has at least the balance of the
last one. -/
theorem getLast_balance_le (l : Coins) (hl : l.Pairwise (fun a b => a.Balance ≥ b.Balance))
    (last : Coin) (h : l.getLast? = some last) (i : Nat) (hi : i < l.length) :
    last.Balance ≤ l[i].Balance := by
  rw [List.getLast?_eq_getElem?] at h
  have hlast : l[l.length - 1] = last := by
    rw [List.getElem?_eq_getElem (by omega)] at h
    exact Option.some.inj h
  by_cases hil : i = l.length - 1
  · subst hil
    rw [hlast]
  · have := List.pairwise_iff_getElem.1 hl i (l.length - 1) hi (by omega) (by omega)
    rw [hlast] at this
    exact this

/-- After a successful `PickCoins` for a positive amount, the returned coins without
the last one sum to less than the amount. -/
theorem PickCoins_dropLast_lt (pdqsort : (Coin → Coin → Bool) → List Coin → List Coin)
    (cs : Coins) (amount pickMethod : Int) (hamount : 0 < amount)
    (h : (PickCoins pdqsort cs amount pickMethod).2 = none) :
    balanceSum (PickCoins pdqsort cs amount pickMethod).1.dropLast < amount := by
  obtain ⟨k, hk0, hkl, hres, _, hmin⟩ := PickCoins_shortest_take pdqsort cs amount pickMethod h
  obtain ⟨k, rfl⟩ : ∃ k', k = k' + 1 := ⟨k - 1, by omega⟩
  have hk : k < (sortedCoins pdqsort cs pickMethod).length := by omega
  have e := List.take_concat_get (sortedCoins pdqsort cs pickMethod) k hk
  rw [List.concat_eq_append] at e
  rw [hres, ← e, List.dropLast_concat]
  by_cases h0 : k = 0
  · subst h0; simpa [balanceSum] using hamount
  · exact hmin k (by omega) (by omega)

/-- A successful `PickCoins` returns at least one coin. -/
theorem PickCoins_ok_ne_nil (pdqsort : (Coin → Coin → Bool) → List Coin → List Coin)
    (cs : Coins) (amount pickMethod : Int)
    (h : (PickCoins pdqsort cs amount pickMethod).2 = none) :
    (PickCoins pdqsort cs amount pickMethod).1 ≠ [] := by
  obtain ⟨k, hk0, hkl, hres, _, _⟩ := PickCoins_shortest_take pdqsort cs amount pickMethod h
  intro hnil
  have hlen := congrArg List.length hres
  rw [hnil, List.length_take] at hlen
  simp at hlen
  omega

theorem sortedCoins_nil (pdqsort : (Coin → Coin → Bool) → List Coin → List Coin)
    (pickMethod : Int) : sortedCoins pdqsort [] pickMethod = [] := by
  unfold sortedCoins sortSlice
  split
  · rfl
  · simp [insertionSortFunc, insertionLoop]

theorem sortedCoins_singleton (pdqsort : (Coin → Coin → Bool) → List Coin → List Coin)
    (c : Coin) (pickMethod : Int) : sortedCoins pdqsort [c] pickMethod = [c] := by
  unfold sortedCoins sortSlice
  split
  · rfl
  · simp [insertionSortFunc, insertionLoop, insertLeft]

/-- On the empty collection `PickCoins` fails, whatever the amount. -/
theorem PickCoins_nil (pdqsort : (Coin → Coin → Bool) → List Coin → List Coin)
    (amount pickMethod : Int) :
    PickCoins pdqsort [] amount pickMethod = ([], some Error.ErrCoinsNeedMoreObject) := by
  unfold PickCoins
  rw [sortedCoins_nil]
  rfl

theorem PickSUICoinsWithGas_gas_zero (pdqsort : (Coin → Coin → Bool) → List Coin → List Coin)
    (cs : Coins) (amount pickMethod : Int) :
    PickSUICoinsWithGas pdqsort cs amount 0 pickMethod =
      ((PickCoins pdqsort cs amount pickMethod).1, none,
        (PickCoins pdqsort cs amount pickMethod).2) := by
  simp [PickSUICoinsWithGas]

/-! ## The loop of `PickCoinNoLess` -/

/-- The loop ends either without a match, no coin passing the test, or on the first
coin that passes it. -/
theorem noLessLoop_spec (amount : Nat) (l : Coins) : ∀ i : Nat,
    (noLessLoop amount l i = none ∧ ∀ c ∈ l, uint64 c.Balance < amount) ∨
    ∃ k, ∃ hk : k < l.length,
      noLessLoop amount l i = some (l[k], i + k) ∧ amount ≤ uint64 l[k].Balance ∧
      ∀ j, ∀ hj : j < l.length, j < k → uint64 l[j].Balance < amount := by
  induction l with
  | nil => intro i; left; exact ⟨rfl, by simp⟩
  | cons c rest ih =>
    intro i
    by_cases hc : uint64 c.Balance ≥ amount
    · right
      refine ⟨0, by simp, by simp [noLessLoop, hc], by simpa using hc, ?_⟩
      intro j hj hj0; omega
    · have hstep : noLessLoop amount (c :: rest) i = noLessLoop amount rest (i + 1) := by
        simp only [noLessLoop, if_neg hc]
      rcases ih (i + 1) with ⟨hnone, hall⟩ | ⟨k, hk, hres, hqk, hfirst⟩
      · left
        refine ⟨by rw [hstep, hnone], ?_⟩
        intro d hd
        rcases List.mem_cons.1 hd with rfl | hd
        · omega
        · exact hall d hd
      · right
        refine ⟨k + 1, by simpa using hk, ?_, by simpa using hqk, ?_⟩
        · rw [hstep, hres]; simp; omega
        · intro j hj hjk
          cases j with
          | zero => simp only [List.getElem_cons_zero]; omega
          | succ j => simpa using hfirst j (by simpa using hj) (by omega)

theorem PickCoinNoLess_no_match (cs : Coins) (amount : Nat)
    (h : noLessLoop amount cs 0 = none) :
    PickCoinNoLess cs amount =
      if cs.length ≤ 3 then (none, some (Error.New "insufficient balance"), cs)
      else (none, some (Error.New "no coin is enough to cover the gas"), cs) := by
  unfold PickCoinNoLess
  rw [h]

theorem PickCoinNoLess_match (cs : Coins) (amount : Nat) (coin : Coin) (i : Nat)
    (h : noLessLoop amount cs 0 = some (coin, i)) :
    PickCoinNoLess cs amount =
      (some coin, none, cs.take i ++ cs.drop (i + 1) ++ cs.drop (cs.length - 1)) := by
  unfold PickCoinNoLess
  rw [h]

theorem uint64_lt_of_nonneg_lt {x : Int} {amount : Nat} (h0 : 0 ≤ x) (h : x < amount) :
    uint64 x < amount := by
  have := uint64_le_of_nonneg h0
  omega

/-- The in-place removal of `PickCoinNoLess` leaves the caller a slice of the same
length. -/
theorem PickCoinNoLess_backing_length (cs : Coins) (amount : Nat) :
    (PickCoinNoLess cs amount).2.2.length = cs.length := by
  rcases noLessLoop_spec amount cs 0 with ⟨hnone, _⟩ | ⟨k, hk, hres, _, _⟩
  · rw [PickCoinNoLess_no_match cs amount hnone]
    split <;> rfl
  · rw [PickCoinNoLess_match cs amount cs[k] k (by simpa using hres)]
    simp only [List.length_append, List.length_take, List.length_drop]
    omega

/-- When the test of the loop fails on every coin, `PickCoinNoLess` returns no coin
and chooses its error by `len(cs) <= 3`; the two error values differ. -/
theorem PickCoinNoLess_error_of_no_match (cs : Coins) (amount : Nat)
    (hno : ∀ c ∈ cs, uint64 c.Balance < amount) :
    (PickCoinNoLess cs amount).1 = none ∧
    ((PickCoinNoLess cs amount).2.1 = some (Error.New "insufficient balance") ↔
      cs.length ≤ 3) ∧
    ((PickCoinNoLess cs amount).2.1 = some (Error.New "no coin is enough to cover the gas") ↔
      3 < cs.length) ∧
    Error.New "insufficient balance" ≠ Error.New "no coin is enough to cover the gas" := by
  have hnone : noLessLoop amount cs 0 = none := by
    rcases noLessLoop_spec amount cs 0 with ⟨hnone, _⟩ | ⟨k, hk, _, hqk, _⟩
    · exact hnone
    · have := hno _ (List.getElem_mem hk)
      omega
  have hne : Error.New "insufficient balance" ≠
      Error.New "no coin is enough to cover the gas" := by decide
  rw [PickCoinNoLess_no_match cs amount hnone]
  by_cases hlen : cs.length ≤ 3
  · rw [if_pos hlen]
    refine ⟨rfl, ⟨fun _ => hlen, fun _ => rfl⟩, ⟨fun h => ?_, fun h => by omega⟩, hne⟩
    exact absurd (Option.some.inj h) hne
  · rw [if_neg hlen]
    refine ⟨rfl, ⟨fun h => ?_, fun h => absurd h hlen⟩, ⟨fun _ => by omega, fun _ => rfl⟩, hne⟩
    exact absurd (Option.some.inj h).symm hne

/-! ## Results -/

/-- C1. For every coin collection with non-negative balances, every amount (of
either sign, so in particular every amount `≥ 0`), every `gasAmount > 0` and every
`pickMethod`: when `PickSUICoinsWithGas` returns no error, it returns a gas coin,
the balance of that coin is at least `gasAmount`, and the balances of the returned
spend coins sum to at least `amount`. -/
theorem PickSUICoinsWithGas_success (pdqsort : (Coin → Coin → Bool) → List Coin → List Coin)
    (cs : Coins) (amount : Int) (gasAmount : Nat) (pickMethod : Int)
    (hbal : ∀ c ∈ cs, 0 ≤ c.Balance) (hgas : 0 < gasAmount)
    (h : (PickSUICoinsWithGas pdqsort cs amount gasAmount pickMethod).2.2 = none) :
    ∃ g, (PickSUICoinsWithGas pdqsort cs amount gasAmount pickMethod).2.1 = some g ∧
      (gasAmount : Int) ≤ g.Balance ∧
      amount ≤ balanceSum (PickSUICoinsWithGas pdqsort cs amount gasAmount pickMethod).1 := by
  by_cases hne : cs = []
  · subst hne
    rw [PickSUICoinsWithGas_empty pdqsort amount gasAmount pickMethod hgas] at h
    simp at h
  · rcases gasLoop_start gasAmount cs with ⟨_, hres⟩ | ⟨k, hk, hres, hqk, _, _⟩
    · rw [PickSUICoinsWithGas_not_found pdqsort cs amount gasAmount pickMethod hgas hne 0 hres] at h
      simp at h
    · rw [PickSUICoinsWithGas_found pdqsort cs amount gasAmount pickMethod hgas hne _ _ hres] at h ⊢
      refine ⟨cs[k], rfl, ?_, PickCoins_ok_sum pdqsort _ amount pickMethod h⟩
      have h1 := uint64_le_of_nonneg (hbal cs[k] (List.getElem_mem hk))
      have h2 : gasAmount ≤ uint64 cs[k].Balance := hqk
      omega

/-- Witness of C1 on the balances `[3, 7, 20]` with amount 5 and gas amount 6. -/
theorem PickSUICoinsWithGas_success_witness :
    ∃ g, (PickSUICoinsWithGas insertionSortFunc [mkCoin 1 3, mkCoin 2 7, mkCoin 3 20] 5 6
        PickSmaller).2.1 = some g ∧ ((6 : Nat) : Int) ≤ g.Balance ∧
      5 ≤ balanceSum (PickSUICoinsWithGas insertionSortFunc
        [mkCoin 1 3, mkCoin 2 7, mkCoin 3 20] 5 6 PickSmaller).1 :=
  PickSUICoinsWithGas_success insertionSortFunc [mkCoin 1 3, mkCoin 2 7, mkCoin 3 20] 5 6
    PickSmaller (by decide) (by decide) (by decide)

/-- C2. For every coin collection, every amount and every `pickMethod` value,
the three named constants and any other integer alike: when `PickCoins` returns no
error, the balances of the returned coins sum to at least `amount`. -/
theorem PickCoins_sum_ge (pdqsort : (Coin → Coin → Bool) → List Coin → List Coin)
    (cs : Coins) (amount pickMethod : Int)
    (h : (PickCoins pdqsort cs amount pickMethod).2 = none) :
    amount ≤ balanceSum (PickCoins pdqsort cs amount pickMethod).1 :=
  PickCoins_ok_sum pdqsort cs amount pickMethod h

/-- Witness of C2 with a `pickMethod` that is none of the three constants. -/
theorem PickCoins_sum_ge_witness :
    (PickCoins insertionSortFunc [mkCoin 1 10, mkCoin 2 5, mkCoin 3 50, mkCoin 4 1] 57 7).2 = none ∧
      57 ≤ balanceSum
        (PickCoins insertionSortFunc [mkCoin 1 10, mkCoin 2 5, mkCoin 3 50, mkCoin 4 1] 57 7).1 :=
  ⟨by decide,
    PickCoins_sum_ge insertionSortFunc [mkCoin 1 10, mkCoin 2 5, mkCoin 3 50, mkCoin 4 1] 57 7
      (by decide)⟩

/-- C3. For every coin collection with non-negative balances, every amount `> 0` and
every `pickMethod`, the long-slice part of `sort.Slice` permuting its input
(`PermutesInput`): `PickCoins` fails if and only if `amount` exceeds `TotalBalance`;
a failure is `nil, ErrCoinsNeedMoreObject`, with no partial result; and when
`amount` is at most the total, the call succeeds. -/
theorem PickCoins_fails_iff_exceeds_total
    (pdqsort : (Coin → Coin → Bool) → List Coin → List Coin) (hperm : PermutesInput pdqsort)
    (cs : Coins) (amount pickMethod : Int)
    (hbal : ∀ c ∈ cs, 0 ≤ c.Balance) (hamount : 0 < amount) :
    ((PickCoins pdqsort cs amount pickMethod).2 ≠ none ↔ TotalBalance cs < amount) ∧
    ((PickCoins pdqsort cs amount pickMethod).2 ≠ none →
      PickCoins pdqsort cs amount pickMethod = ([], some Error.ErrCoinsNeedMoreObject)) ∧
    (amount ≤ TotalBalance cs → (PickCoins pdqsort cs amount pickMethod).2 = none) := by
  have hiff := PickCoins_fails_iff hperm cs amount pickMethod hbal hamount
  rw [TotalBalance_eq]
  refine ⟨hiff, ?_, ?_⟩
  · intro h
    rcases pickLoop_cases amount (sortedCoins pdqsort cs pickMethod) [] 0 with h' | h'
    · exact absurd h' h
    · exact h'
  · intro h
    by_contra hne
    have := hiff.1 hne
    omega

/-- Witness of C3: the balances `[10, 5, 50, 1]` total 66, so 67 fails and 66
succeeds. -/
theorem PickCoins_fails_iff_exceeds_total_witness :
    (((PickCoins insertionSortFunc [mkCoin 1 10, mkCoin 2 5, mkCoin 3 50, mkCoin 4 1] 67
        PickSmaller).2 ≠ none ↔
      TotalBalance [mkCoin 1 10, mkCoin 2 5, mkCoin 3 50, mkCoin 4 1] < 67) ∧
    ((PickCoins insertionSortFunc [mkCoin 1 10, mkCoin 2 5, mkCoin 3 50, mkCoin 4 1] 67
        PickSmaller).2 ≠ none →
      PickCoins insertionSortFunc [mkCoin 1 10, mkCoin 2 5, mkCoin 3 50, mkCoin 4 1] 67
        PickSmaller = ([], some Error.ErrCoinsNeedMoreObject)) ∧
    (67 ≤ TotalBalance [mkCoin 1 10, mkCoin 2 5, mkCoin 3 50, mkCoin 4 1] →
      (PickCoins insertionSortFunc [mkCoin 1 10, mkCoin 2 5, mkCoin 3 50, mkCoin 4 1] 67
        PickSmaller).2 = none)) ∧
    TotalBalance [mkCoin 1 10, mkCoin 2 5, mkCoin 3 50, mkCoin 4 1] = 66 ∧
    (PickCoins insertionSortFunc [mkCoin 1 10, mkCoin 2 5, mkCoin 3 50, mkCoin 4 1] 66
        PickSmaller).2 = none :=
  ⟨PickCoins_fails_iff_exceeds_total insertionSortFunc insertionSortFunc_permutes
      [mkCoin 1 10, mkCoin 2 5, mkCoin 3 50, mkCoin 4 1] 67 PickSmaller (by decide) (by decide),
    by decide, by decide⟩

/-- C4. For every coin collection, duplicates allowed, and every amount, gas amount
and `pickMethod`, the long-slice part of `sort.Slice` permuting its input
(`PermutesInput`): the coins returned by
`PickCoins`, and the gas coin (when there is one) together with the spend coins
returned by `PickSUICoinsWithGas`, are as a multiset contained in the input
(`List.Subperm`: a rearrangement of them is a sublist of the input). So they sit at
pairwise distinct positions of the input, no input coin is used twice, and the
position of the gas coin is not among those of the spend coins. -/
theorem picked_coins_subperm_input
    (pdqsort : (Coin → Coin → Bool) → List Coin → List Coin) (hperm : PermutesInput pdqsort)
    (cs : Coins) (amount : Int) (gasAmount : Nat) (pickMethod : Int) :
    (PickCoins pdqsort cs amount pickMethod).1.Subperm cs ∧
    ((PickSUICoinsWithGas pdqsort cs amount gasAmount pickMethod).2.1.toList ++
      (PickSUICoinsWithGas pdqsort cs amount gasAmount pickMethod).1).Subperm cs := by
  refine ⟨PickCoins_subperm hperm cs amount pickMethod, ?_⟩
  by_cases hgas : gasAmount = 0
  · subst hgas
    simpa [PickSUICoinsWithGas] using PickCoins_subperm hperm cs amount pickMethod
  · have hpos : 0 < gasAmount := Nat.pos_of_ne_zero hgas
    by_cases hne : cs = []
    · subst hne
      rw [PickSUICoinsWithGas_empty pdqsort amount gasAmount pickMethod hpos]
      exact List.Subperm.refl _
    · rcases gasLoop_start gasAmount cs with ⟨_, hres⟩ | ⟨k, hk, hres, _, _, _⟩
      · rw [PickSUICoinsWithGas_not_found pdqsort cs amount gasAmount pickMethod hpos hne 0 hres]
        exact List.nil_subperm
      · rw [PickSUICoinsWithGas_found pdqsort cs amount gasAmount pickMethod hpos hne _ _ hres]
        have h1 := PickCoins_subperm hperm (cs.take k ++ cs.drop (k + 1)) amount pickMethod
        have h2 := (List.subperm_cons cs[k]).2 h1
        exact h2.trans (perm_cons_take_drop cs k hk).subperm

/-- Witness of C4 on a collection holding the same coin twice. -/
theorem picked_coins_subperm_input_witness :
    (PickCoins insertionSortFunc [mkCoin 1 7, mkCoin 1 7, mkCoin 2 3] 8 PickBigger).1.Subperm
      [mkCoin 1 7, mkCoin 1 7, mkCoin 2 3] ∧
    ((PickSUICoinsWithGas insertionSortFunc [mkCoin 1 7, mkCoin 1 7, mkCoin 2 3] 8 6
        PickBigger).2.1.toList ++
      (PickSUICoinsWithGas insertionSortFunc [mkCoin 1 7, mkCoin 1 7, mkCoin 2 3] 8 6
        PickBigger).1).Subperm [mkCoin 1 7, mkCoin 1 7, mkCoin 2 3] :=
  picked_coins_subperm_input insertionSortFunc insertionSortFunc_permutes
    [mkCoin 1 7, mkCoin 1 7, mkCoin 2 3] 8 6 PickBigger

/-- C5. For every coin collection whose balances lie in `[0, 2^64)` and every
`gasAmount > 0` that the balance of some coin reaches (so the collection is not
empty): there is an index `i` with `balance_i ≥ gasAmount` and
`balance_i ≤ balance_j` for every `j` with `balance_j ≥ gasAmount`, no smaller index
has these two properties, the search of `PickSUICoinsWithGas` ends with
`selectIndex = i` and `gasCoin = &cs[i]`, and the gas coin returned is `cs[i]` for
every `amount` and every `pickMethod`. -/
theorem gasCoin_least_balance_first_index
    (pdqsort : (Coin → Coin → Bool) → List Coin → List Coin)
    (cs : Coins) (gasAmount : Nat)
    (hrange : ∀ c ∈ cs, 0 ≤ c.Balance ∧ c.Balance < 2 ^ 64) (hgas : 0 < gasAmount)
    (hex : ∃ c ∈ cs, (gasAmount : Int) ≤ c.Balance) :
    ∃ i, ∃ hi : i < cs.length,
      (gasAmount : Int) ≤ cs[i].Balance ∧
      (∀ c ∈ cs, (gasAmount : Int) ≤ c.Balance → cs[i].Balance ≤ c.Balance) ∧
      (∀ j, ∀ hj : j < cs.length, j < i →
        ¬ ((gasAmount : Int) ≤ cs[j].Balance ∧
          ∀ c ∈ cs, (gasAmount : Int) ≤ c.Balance → cs[j].Balance ≤ c.Balance)) ∧
      gasLoop gasAmount cs 0 (none, 0) = (some cs[i], i) ∧
      ∀ (amount pickMethod : Int),
        (PickSUICoinsWithGas pdqsort cs amount gasAmount pickMethod).2.1 = some cs[i] := by
  have hpass : ∀ c ∈ cs, (passesGasFilter gasAmount c ↔ (gasAmount : Int) ≤ c.Balance) :=
    fun c hc => passesGasFilter_iff_of_range gasAmount (hrange c hc).1 (hrange c hc).2
  rcases gasLoop_start gasAmount cs with ⟨hnone, _⟩ | ⟨k, hk, hres, hqk, hmin, hfirst⟩
  · obtain ⟨c, hc, hge⟩ := hex
    exact absurd ((hpass c hc).2 hge) (hnone c hc)
  · have hne : cs ≠ [] := by
      intro h
      rw [h] at hk
      simp at hk
    have hkge : (gasAmount : Int) ≤ cs[k].Balance := (hpass _ (List.getElem_mem hk)).1 hqk
    refine ⟨k, hk, hkge, ?_, ?_, hres, ?_⟩
    · intro c hc hge
      exact hmin c hc ((hpass c hc).2 hge)
    · intro j hj hjk hcon
      have h1 := hfirst j hj hjk ((hpass _ (List.getElem_mem hj)).2 hcon.1)
      have h2 := hcon.2 cs[k] (List.getElem_mem hk) hkge
      omega
    · intro amount pickMethod
      rw [PickSUICoinsWithGas_found pdqsort cs amount gasAmount pickMethod hgas hne _ _ hres]

/-- Witness of C5: in `[9, 4, 6, 4, 3]` with gas amount 4 the gas coin is the first
coin of balance 4, at index 1. -/
theorem gasCoin_least_balance_first_index_witness :
    ∃ i, ∃ hi : i < [mkCoin 1 9, mkCoin 2 4, mkCoin 3 6, mkCoin 4 4, mkCoin 5 3].length,
      ((4 : Nat) : Int) ≤
        [mkCoin 1 9, mkCoin 2 4, mkCoin 3 6, mkCoin 4 4, mkCoin 5 3][i].Balance ∧
      (∀ c ∈ [mkCoin 1 9, mkCoin 2 4, mkCoin 3 6, mkCoin 4 4, mkCoin 5 3],
        ((4 : Nat) : Int) ≤ c.Balance →
        [mkCoin 1 9, mkCoin 2 4, mkCoin 3 6, mkCoin 4 4, mkCoin 5 3][i].Balance ≤ c.Balance) ∧
      (∀ j, ∀ hj : j < [mkCoin 1 9, mkCoin 2 4, mkCoin 3 6, mkCoin 4 4, mkCoin 5 3].length,
        j < i →
        ¬ (((4 : Nat) : Int) ≤
            [mkCoin 1 9, mkCoin 2 4, mkCoin 3 6, mkCoin 4 4, mkCoin 5 3][j].Balance ∧
          ∀ c ∈ [mkCoin 1 9, mkCoin 2 4, mkCoin 3 6, mkCoin 4 4, mkCoin 5 3],
            ((4 : Nat) : Int) ≤ c.Balance →
            [mkCoin 1 9, mkCoin 2 4, mkCoin 3 6, mkCoin 4 4, mkCoin 5 3][j].Balance ≤
              c.Balance)) ∧
      gasLoop 4 [mkCoin 1 9, mkCoin 2 4, mkCoin 3 6, mkCoin 4 4, mkCoin 5 3] 0 (none, 0) =
        (some [mkCoin 1 9, mkCoin 2 4, mkCoin 3 6, mkCoin 4 4, mkCoin 5 3][i], i) ∧
      ∀ (amount pickMethod : Int),
        (PickSUICoinsWithGas insertionSortFunc
          [mkCoin 1 9, mkCoin 2 4, mkCoin 3 6, mkCoin 4 4, mkCoin 5 3] amount 4
          pickMethod).2.1 =
          some [mkCoin 1 9, mkCoin 2 4, mkCoin 3 6, mkCoin 4 4, mkCoin 5 3][i] :=
  gasCoin_least_balance_first_index insertionSortFunc
    [mkCoin 1 9, mkCoin 2 4, mkCoin 3 6, mkCoin 4 4, mkCoin 5 3] 4
    (by decide) (by decide) ⟨mkCoin 2 4, by decide, by decide⟩

/-- C6. The gas coin search compares the low 64 bits of a balance, not the balance:
on the single coin of balance `2^64`, with `gasAmount = 1`, the coin has balance
`≥ gasAmount`, yet `PickSUICoinsWithGas` fails with `ErrCoinsNotMatchRequest`,
whatever the amount and the `pickMethod`. -/
theorem PickSUICoinsWithGas_misses_large_balance
    (pdqsort : (Coin → Coin → Bool) → List Coin → List Coin) (amount pickMethod : Int) :
    (∃ c ∈ [mkCoin 1 18446744073709551616], ((1 : Nat) : Int) ≤ c.Balance) ∧
    PickSUICoinsWithGas pdqsort [mkCoin 1 18446744073709551616] amount 1 pickMethod =
      ([], none, some Error.ErrCoinsNotMatchRequest) :=
  ⟨⟨mkCoin 1 18446744073709551616, by decide, by decide⟩,
    PickSUICoinsWithGas_not_found pdqsort [mkCoin 1 18446744073709551616] amount 1 pickMethod
      (by decide) (by decide) 0 (by decide)⟩

/-- C7. For every coin collection, every amount, every `gasAmount > 0` whose search
finds the gas coin `g` at index `i`, and every `pickMethod`: `i` is a position of the
collection and holds `g`, the gas coin returned is `g`, and the spend subset and the
error returned by `PickSUICoinsWithGas` are the result and the error of `PickCoins`
with the same amount and method on the collection with exactly position `i` removed,
the other coins in their input order. -/
theorem PickSUICoinsWithGas_delegates_without_gas_coin
    (pdqsort : (Coin → Coin → Bool) → List Coin → List Coin)
    (cs : Coins) (amount : Int) (gasAmount : Nat) (pickMethod : Int)
    (hgas : 0 < gasAmount) (g : Coin) (i : Nat)
    (hfound : gasLoop gasAmount cs 0 (none, 0) = (some g, i)) :
    cs[i]? = some g ∧
    (PickSUICoinsWithGas pdqsort cs amount gasAmount pickMethod).2.1 = some g ∧
    (PickSUICoinsWithGas pdqsort cs amount gasAmount pickMethod).1 =
      (PickCoins pdqsort (cs.eraseIdx i) amount pickMethod).1 ∧
    (PickSUICoinsWithGas pdqsort cs amount gasAmount pickMethod).2.2 =
      (PickCoins pdqsort (cs.eraseIdx i) amount pickMethod).2 := by
  have hne : cs ≠ [] := by
    intro h
    rw [h] at hfound
    simp [gasLoop] at hfound
  have hidx : cs[i]? = some g := by
    rcases gasLoop_start gasAmount cs with ⟨_, hres⟩ | ⟨k, hk, hres, _, _, _⟩
    · rw [hres] at hfound
      simp at hfound
    · rw [hres] at hfound
      have h1 : cs[k] = g := by simpa using congrArg Prod.fst hfound
      have h2 : k = i := by simpa using congrArg Prod.snd hfound
      subst h2
      rw [List.getElem?_eq_getElem hk, h1]
  rw [PickSUICoinsWithGas_found pdqsort cs amount gasAmount pickMethod hgas hne g i hfound,
    List.eraseIdx_eq_take_drop_succ]
  exact ⟨hidx, rfl, rfl, rfl⟩

/-- Witness of C7, the example of the claim: balances `[3, 7, 20]`, amount 5, gas
amount 6, `PickSmaller`. The gas coin is the coin of balance 7 at index 1, the
remaining pool is `[3, 20]` and the spend subset is `[3, 20]`. -/
theorem PickSUICoinsWithGas_delegates_without_gas_coin_witness :
    List.eraseIdx [mkCoin 1 3, mkCoin 2 7, mkCoin 3 20] 1 = [mkCoin 1 3, mkCoin 3 20] ∧
    PickSUICoinsWithGas insertionSortFunc [mkCoin 1 3, mkCoin 2 7, mkCoin 3 20] 5 6 PickSmaller =
      ([mkCoin 1 3, mkCoin 3 20], some (mkCoin 2 7), none) ∧
    ([mkCoin 1 3, mkCoin 2 7, mkCoin 3 20][1]? = some (mkCoin 2 7) ∧
    (PickSUICoinsWithGas insertionSortFunc [mkCoin 1 3, mkCoin 2 7, mkCoin 3 20] 5 6
        PickSmaller).2.1 = some (mkCoin 2 7) ∧
    (PickSUICoinsWithGas insertionSortFunc [mkCoin 1 3, mkCoin 2 7, mkCoin 3 20] 5 6
        PickSmaller).1 =
      (PickCoins insertionSortFunc (List.eraseIdx [mkCoin 1 3, mkCoin 2 7, mkCoin 3 20] 1) 5
        PickSmaller).1 ∧
    (PickSUICoinsWithGas insertionSortFunc [mkCoin 1 3, mkCoin 2 7, mkCoin 3 20] 5 6
        PickSmaller).2.2 =
      (PickCoins insertionSortFunc (List.eraseIdx [mkCoin 1 3, mkCoin 2 7, mkCoin 3 20] 1) 5
        PickSmaller).2) :=
  ⟨by decide, by decide,
    PickSUICoinsWithGas_delegates_without_gas_coin insertionSortFunc
      [mkCoin 1 3, mkCoin 2 7, mkCoin 3 20] 5 6 PickSmaller (by decide) (mkCoin 2 7) 1
      (by decide)⟩

/-- C8. For every coin collection and every amount (non-negative balances and
`amount ≥ 0` included), the long-slice part of `sort.Slice` permuting and ordering
its input (`PermutesInput`, `OrdersInput`): when `PickCoins` with `PickSmaller`
succeeds, the sequence of balances of the returned coins is the
shortest non-empty prefix of the input balances sorted ascending whose sum is at
least `amount`. -/
theorem PickSmaller_takes_shortest_ascending
    (pdqsort : (Coin → Coin → Bool) → List Coin → List Coin)
    (hperm : PermutesInput pdqsort) (hord : OrdersInput pdqsort)
    (cs : Coins) (amount : Int)
    (h : (PickCoins pdqsort cs amount PickSmaller).2 = none) :
    ∃ k, 0 < k ∧ k ≤ cs.length ∧
      (PickCoins pdqsort cs amount PickSmaller).1.map Coin.Balance =
        (balancesAscending cs).take k ∧
      amount ≤ ((balancesAscending cs).take k).sum ∧
      ∀ j, 0 < j → j < k → ((balancesAscending cs).take j).sum < amount := by
  obtain ⟨k, hk0, hkl, hres, hsum, hmin⟩ := PickCoins_shortest_take pdqsort cs amount _ h
  have hb := sortedCoins_balances_ascending hperm hord cs
  refine ⟨k, hk0, ?_, ?_, ?_, ?_⟩
  · rw [← (sortedCoins_perm hperm cs PickSmaller).length_eq]; exact hkl
  · rw [hres, List.map_take, hb]
  · rw [← hb, ← balanceSum_take_eq]; exact hsum
  · intro j h0 hj
    rw [← hb, ← balanceSum_take_eq]
    exact hmin j h0 hj

/-- Witness of C8: from `[10, 5, 50, 1]` and amount 12, `PickSmaller` takes the
balances `1, 5, 10`. -/
theorem PickSmaller_takes_shortest_ascending_witness :
    (PickCoins insertionSortFunc [mkCoin 1 10, mkCoin 2 5, mkCoin 3 50, mkCoin 4 1] 12
      PickSmaller).1.map Coin.Balance = [1, 5, 10] ∧
    ∃ k, 0 < k ∧ k ≤ [mkCoin 1 10, mkCoin 2 5, mkCoin 3 50, mkCoin 4 1].length ∧
      (PickCoins insertionSortFunc [mkCoin 1 10, mkCoin 2 5, mkCoin 3 50, mkCoin 4 1] 12
        PickSmaller).1.map Coin.Balance =
        (balancesAscending [mkCoin 1 10, mkCoin 2 5, mkCoin 3 50, mkCoin 4 1]).take k ∧
      12 ≤ ((balancesAscending [mkCoin 1 10, mkCoin 2 5, mkCoin 3 50, mkCoin 4 1]).take k).sum ∧
      ∀ j, 0 < j → j < k →
        ((balancesAscending [mkCoin 1 10, mkCoin 2 5, mkCoin 3 50, mkCoin 4 1]).take j).sum < 12 :=
  ⟨by decide,
    PickSmaller_takes_shortest_ascending insertionSortFunc insertionSortFunc_permutes
      insertionSortFunc_orders [mkCoin 1 10, mkCoin 2 5, mkCoin 3 50, mkCoin 4 1] 12 (by decide)⟩

/-- C9. For every coin collection and every amount (non-negative balances and
`amount ≥ 0` included), the long-slice part of `sort.Slice` permuting and ordering
its input (`PermutesInput`, `OrdersInput`): when `PickCoins` with `PickBigger`
succeeds, the sequence of balances of the returned coins is the
shortest non-empty prefix of the input balances sorted descending whose sum is at
least `amount`; and whenever the largest balance `m` of the collection is at least
`amount`, the call succeeds with a single coin, of balance `m`. -/
theorem PickBigger_takes_shortest_descending
    (pdqsort : (Coin → Coin → Bool) → List Coin → List Coin)
    (hperm : PermutesInput pdqsort) (hord : OrdersInput pdqsort)
    (cs : Coins) (amount : Int) :
    ((PickCoins pdqsort cs amount PickBigger).2 = none →
      ∃ k, 0 < k ∧ k ≤ cs.length ∧
        (PickCoins pdqsort cs amount PickBigger).1.map Coin.Balance =
          (balancesDescending cs).take k ∧
        amount ≤ ((balancesDescending cs).take k).sum ∧
        ∀ j, 0 < j → j < k → ((balancesDescending cs).take j).sum < amount) ∧
    ∀ m, m ∈ cs.map Coin.Balance → (∀ b ∈ cs.map Coin.Balance, b ≤ m) → amount ≤ m →
      ∃ c, c ∈ cs ∧ c.Balance = m ∧ PickCoins pdqsort cs amount PickBigger = ([c], none) := by
  refine ⟨?_, fun m hm hmax hge => PickBigger_single_coin hperm hord cs amount m hm hmax hge⟩
  intro h
  obtain ⟨k, hk0, hkl, hres, hsum, hmin⟩ := PickCoins_shortest_take pdqsort cs amount _ h
  have hb := sortedCoins_balances_descending hperm hord cs
  refine ⟨k, hk0, ?_, ?_, ?_, ?_⟩
  · rw [← (sortedCoins_perm hperm cs PickBigger).length_eq]; exact hkl
  · rw [hres, List.map_take, hb]
  · rw [← hb, ← balanceSum_take_eq]; exact hsum
  · intro j h0 hj
    rw [← hb, ← balanceSum_take_eq]
    exact hmin j h0 hj

/-- Witness of C9, the example of the claim: from the balances `[10, 5, 50, 1]` and
amount 12, `PickBigger` returns only the coin of balance 50. -/
theorem PickBigger_takes_shortest_descending_witness :
    PickCoins insertionSortFunc [mkCoin 1 10, mkCoin 2 5, mkCoin 3 50, mkCoin 4 1] 12 PickBigger =
      ([mkCoin 3 50], none) ∧
    balancesDescending [mkCoin 1 10, mkCoin 2 5, mkCoin 3 50, mkCoin 4 1] = [50, 10, 5, 1] ∧
    (((PickCoins insertionSortFunc [mkCoin 1 10, mkCoin 2 5, mkCoin 3 50, mkCoin 4 1] 12
        PickBigger).2 = none →
      ∃ k, 0 < k ∧ k ≤ [mkCoin 1 10, mkCoin 2 5, mkCoin 3 50, mkCoin 4 1].length ∧
        (PickCoins insertionSortFunc [mkCoin 1 10, mkCoin 2 5, mkCoin 3 50, mkCoin 4 1] 12
          PickBigger).1.map Coin.Balance =
          (balancesDescending [mkCoin 1 10, mkCoin 2 5, mkCoin 3 50, mkCoin 4 1]).take k ∧
        12 ≤ ((balancesDescending
          [mkCoin 1 10, mkCoin 2 5, mkCoin 3 50, mkCoin 4 1]).take k).sum ∧
        ∀ j, 0 < j → j < k → ((balancesDescending
          [mkCoin 1 10, mkCoin 2 5, mkCoin 3 50, mkCoin 4 1]).take j).sum < 12) ∧
    ∀ m, m ∈ [mkCoin 1 10, mkCoin 2 5, mkCoin 3 50, mkCoin 4 1].map Coin.Balance →
      (∀ b ∈ [mkCoin 1 10, mkCoin 2 5, mkCoin 3 50, mkCoin 4 1].map Coin.Balance, b ≤ m) →
      12 ≤ m →
      ∃ c, c ∈ [mkCoin 1 10, mkCoin 2 5, mkCoin 3 50, mkCoin 4 1] ∧ c.Balance = m ∧
        PickCoins insertionSortFunc [mkCoin 1 10, mkCoin 2 5, mkCoin 3 50, mkCoin 4 1] 12
          PickBigger = ([c], none)) :=
  ⟨by decide, by decide,
    PickBigger_takes_shortest_descending insertionSortFunc insertionSortFunc_permutes
      insertionSortFunc_orders [mkCoin 1 10, mkCoin 2 5, mkCoin 3 50, mkCoin 4 1] 12⟩

/-- C10, as stated, fails: for the two coins `A`, `B` of equal balance 5, in this
order, the working order of `PickBigger` is `[B, A]` and not the stable descending
sort `[A, B]`, and with amount 5 `PickCoins` returns `[B]`, not `[A]`. -/
theorem PickBigger_not_stable :
    stableSortDescending [mkCoin 1 5, mkCoin 2 5] = [mkCoin 1 5, mkCoin 2 5] ∧
    sortedCoins insertionSortFunc [mkCoin 1 5, mkCoin 2 5] PickBigger =
      [mkCoin 2 5, mkCoin 1 5] ∧
    sortedCoins insertionSortFunc [mkCoin 1 5, mkCoin 2 5] PickBigger ≠
      stableSortDescending [mkCoin 1 5, mkCoin 2 5] ∧
    PickCoins insertionSortFunc [mkCoin 1 5, mkCoin 2 5] 5 PickBigger = ([mkCoin 2 5], none) ∧
    (PickCoins insertionSortFunc [mkCoin 1 5, mkCoin 2 5] 5 PickBigger).1 ≠ [mkCoin 1 5] :=
  ⟨by decide, by decide, by decide, by decide, by decide⟩

/-- C10, amended. For every coin collection and amount, the long-slice part of
`sort.Slice` permuting and ordering its input (`PermutesInput`, `OrdersInput`):
under `PickBigger` the working order is a descending sort of the input, that is a
permutation of it with non-increasing balances, the order among coins of equal
balance being left open, and the result of `PickCoins` is a prefix of the working
order. For two coins `a` then `b` of equal balance 5 and amount 5, `PickCoins` with
`PickBigger` returns exactly one of the two coins. -/
theorem PickBigger_working_order
    (pdqsort : (Coin → Coin → Bool) → List Coin → List Coin)
    (hperm : PermutesInput pdqsort) (hord : OrdersInput pdqsort)
    (cs : Coins) (amount : Int) :
    (sortedCoins pdqsort cs PickBigger).Perm cs ∧
    (sortedCoins pdqsort cs PickBigger).Pairwise (fun a b => a.Balance ≥ b.Balance) ∧
    (PickCoins pdqsort cs amount PickBigger).1 <+: sortedCoins pdqsort cs PickBigger ∧
    ∀ a b : Coin, a.Balance = 5 → b.Balance = 5 →
      ∃ c, (c = a ∨ c = b) ∧ PickCoins pdqsort [a, b] 5 PickBigger = ([c], none) := by
  refine ⟨sortedCoins_perm hperm cs PickBigger, sortedCoins_descending hord cs,
    PickCoins_isPrefix_sortedCoins pdqsort cs amount PickBigger, ?_⟩
  intro a b ha hb
  have hless : pickLess PickBigger b a = true := by
    simp [pickLess, PickBigger_ne_PickSmaller, ha, hb]
  have hpair : sortedCoins pdqsort [a, b] PickBigger = [b, a] := by
    simp only [sortedCoins, if_neg PickBigger_ne_PickByOrder, sortSlice]
    rw [if_pos (by simp)]
    exact insertionSortFunc_pair_of_less _ a b hless
  refine ⟨b, Or.inr rfl, ?_⟩
  unfold PickCoins
  rw [hpair]
  have h0 : 0 + b.Balance ≥ 5 := by omega
  unfold pickLoop
  rw [if_pos h0]
  rfl

/-- Witness of C10 as amended, on the balances `[5, 9, 5]`. -/
theorem PickBigger_working_order_witness :
    (sortedCoins insertionSortFunc [mkCoin 1 5, mkCoin 2 9, mkCoin 3 5] PickBigger).Perm
      [mkCoin 1 5, mkCoin 2 9, mkCoin 3 5] ∧
    (sortedCoins insertionSortFunc [mkCoin 1 5, mkCoin 2 9, mkCoin 3 5] PickBigger).Pairwise
      (fun a b => a.Balance ≥ b.Balance) ∧
    (PickCoins insertionSortFunc [mkCoin 1 5, mkCoin 2 9, mkCoin 3 5] 10 PickBigger).1 <+:
      sortedCoins insertionSortFunc [mkCoin 1 5, mkCoin 2 9, mkCoin 3 5] PickBigger ∧
    ∀ a b : Coin, a.Balance = 5 → b.Balance = 5 →
      ∃ c, (c = a ∨ c = b) ∧ PickCoins insertionSortFunc [a, b] 5 PickBigger = ([c], none) :=
  PickBigger_working_order insertionSortFunc insertionSortFunc_permutes insertionSortFunc_orders
    [mkCoin 1 5, mkCoin 2 9, mkCoin 3 5] 10

/-- C11. For every coin collection and every amount (non-negative balances and
`amount ≥ 0` included): when `PickCoins` with `PickByOrder` succeeds, the result is
the shortest non-empty initial segment of the input sequence, its coins in input
order, whose balances sum to at least `amount`. -/
theorem PickByOrder_takes_shortest_input_segment
    (pdqsort : (Coin → Coin → Bool) → List Coin → List Coin) (cs : Coins) (amount : Int)
    (h : (PickCoins pdqsort cs amount PickByOrder).2 = none) :
    ∃ k, 0 < k ∧ k ≤ cs.length ∧
      (PickCoins pdqsort cs amount PickByOrder).1 = cs.take k ∧
      amount ≤ balanceSum (cs.take k) ∧
      ∀ j, 0 < j → j < k → balanceSum (cs.take j) < amount := by
  have hs : sortedCoins pdqsort cs PickByOrder = cs := by simp [sortedCoins]
  have := PickCoins_shortest_take pdqsort cs amount PickByOrder h
  rw [hs] at this
  exact this

/-- Witness of C11: from `[10, 5, 50, 1]` in input order, amount 12 takes the first
two coins. -/
theorem PickByOrder_takes_shortest_input_segment_witness :
    PickCoins insertionSortFunc [mkCoin 1 10, mkCoin 2 5, mkCoin 3 50, mkCoin 4 1] 12
      PickByOrder = ([mkCoin 1 10, mkCoin 2 5], none) ∧
    ∃ k, 0 < k ∧ k ≤ [mkCoin 1 10, mkCoin 2 5, mkCoin 3 50, mkCoin 4 1].length ∧
      (PickCoins insertionSortFunc [mkCoin 1 10, mkCoin 2 5, mkCoin 3 50, mkCoin 4 1] 12
        PickByOrder).1 = [mkCoin 1 10, mkCoin 2 5, mkCoin 3 50, mkCoin 4 1].take k ∧
      12 ≤ balanceSum ([mkCoin 1 10, mkCoin 2 5, mkCoin 3 50, mkCoin 4 1].take k) ∧
      ∀ j, 0 < j → j < k →
        balanceSum ([mkCoin 1 10, mkCoin 2 5, mkCoin 3 50, mkCoin 4 1].take j) < 12 :=
  ⟨by decide,
    PickByOrder_takes_shortest_input_segment insertionSortFunc
      [mkCoin 1 10, mkCoin 2 5, mkCoin 3 50, mkCoin 4 1] 12 (by decide)⟩

/-- C12, as stated, fails under `PickSmaller`: from the balances `[1, 10]` and
amount 10, `PickSmaller` returns both coins, and without the coin of balance 1 the
rest still sums to 10, which is not below the amount. -/
theorem PickSmaller_returns_redundant_coin :
    PickCoins insertionSortFunc [mkCoin 1 1, mkCoin 2 10] 10 PickSmaller =
      ([mkCoin 1 1, mkCoin 2 10], none) ∧
    balanceSum ((PickCoins insertionSortFunc [mkCoin 1 1, mkCoin 2 10] 10
      PickSmaller).1.eraseIdx 0) = 10 ∧
    ¬ balanceSum ((PickCoins insertionSortFunc [mkCoin 1 1, mkCoin 2 10] 10
      PickSmaller).1.eraseIdx 0) < 10 :=
  ⟨by decide, by decide, by decide⟩

/-- C12, amended. For every coin collection and every amount `> 0`, the long-slice
part of `sort.Slice` ordering its input (`OrdersInput`): when `PickCoins` with
`PickBigger` succeeds, removing any single coin from the returned subset leaves a
summed balance below `amount`; when `PickCoins` with `PickSmaller` succeeds,
removing the last returned coin leaves a summed balance below `amount`. -/
theorem PickCoins_needed_coins
    (pdqsort : (Coin → Coin → Bool) → List Coin → List Coin) (hord : OrdersInput pdqsort)
    (cs : Coins) (amount : Int) (hamount : 0 < amount) :
    ((PickCoins pdqsort cs amount PickBigger).2 = none →
      ∀ i, i < (PickCoins pdqsort cs amount PickBigger).1.length →
        balanceSum ((PickCoins pdqsort cs amount PickBigger).1.eraseIdx i) < amount) ∧
    ((PickCoins pdqsort cs amount PickSmaller).2 = none →
      balanceSum (PickCoins pdqsort cs amount PickSmaller).1.dropLast < amount) := by
  refine ⟨?_, PickCoins_dropLast_lt pdqsort cs amount PickSmaller hamount⟩
  intro h i hi
  obtain ⟨last, hlast, hall⟩ := PickCoins_eraseIdx_lt pdqsort cs amount PickBigger hamount h
  have hdesc : (PickCoins pdqsort cs amount PickBigger).1.Pairwise
      (fun a b => a.Balance ≥ b.Balance) :=
    (sortedCoins_descending hord cs).sublist
      (PickCoins_isPrefix_sortedCoins pdqsort cs amount PickBigger).sublist
  exact hall i hi (getLast_balance_le _ hdesc last hlast i hi)

/-- Witness of C12 as amended, on the balances `[4, 9, 6]` with amount 12. -/
theorem PickCoins_needed_coins_witness :
    ((PickCoins insertionSortFunc [mkCoin 1 4, mkCoin 2 9, mkCoin 3 6] 12 PickBigger).2 = none →
      ∀ i, i < (PickCoins insertionSortFunc [mkCoin 1 4, mkCoin 2 9, mkCoin 3 6] 12
          PickBigger).1.length →
        balanceSum ((PickCoins insertionSortFunc [mkCoin 1 4, mkCoin 2 9, mkCoin 3 6] 12
          PickBigger).1.eraseIdx i) < 12) ∧
    ((PickCoins insertionSortFunc [mkCoin 1 4, mkCoin 2 9, mkCoin 3 6] 12 PickSmaller).2 = none →
      balanceSum (PickCoins insertionSortFunc [mkCoin 1 4, mkCoin 2 9, mkCoin 3 6] 12
        PickSmaller).1.dropLast < 12) :=
  PickCoins_needed_coins insertionSortFunc insertionSortFunc_orders
    [mkCoin 1 4, mkCoin 2 9, mkCoin 3 6] 12 (by decide)

/-- C13. For every coin collection, amount and `pickMethod`: `PickSUICoinsWithGas`
with `gasAmount = 0` returns a nil gas coin, on success and on failure alike, and
its spend subset and error are those of `PickCoins` with the same amount and method
on the same collection. -/
theorem PickSUICoinsWithGas_without_gas
    (pdqsort : (Coin → Coin → Bool) → List Coin → List Coin)
    (cs : Coins) (amount pickMethod : Int) :
    (PickSUICoinsWithGas pdqsort cs amount 0 pickMethod).2.1 = none ∧
    (PickSUICoinsWithGas pdqsort cs amount 0 pickMethod).1 =
      (PickCoins pdqsort cs amount pickMethod).1 ∧
    (PickSUICoinsWithGas pdqsort cs amount 0 pickMethod).2.2 =
      (PickCoins pdqsort cs amount pickMethod).2 := by
  rw [PickSUICoinsWithGas_gas_zero]
  exact ⟨rfl, rfl, rfl⟩

/-- C14. The return for `amount == 0 && gasAmount == 0` is never reached, because
`gasAmount == 0` has already returned the result of `PickCoins`: with both amounts
zero the empty collection gets `ErrCoinsNeedMoreObject`, the single coin of balance 5
is returned as the spend subset, and no collection at all gets the empty spend
subset without an error. -/
theorem PickSUICoinsWithGas_zero_request_not_empty
    (pdqsort : (Coin → Coin → Bool) → List Coin → List Coin) (pickMethod : Int) :
    PickSUICoinsWithGas pdqsort [] 0 0 pickMethod =
      ([], none, some Error.ErrCoinsNeedMoreObject) ∧
    PickSUICoinsWithGas pdqsort [mkCoin 1 5] 0 0 pickMethod = ([mkCoin 1 5], none, none) ∧
    ∀ cs : Coins, PickSUICoinsWithGas pdqsort cs 0 0 pickMethod ≠ ([], none, none) := by
  refine ⟨?_, ?_, ?_⟩
  · rw [PickSUICoinsWithGas_gas_zero, PickCoins_nil]
  · rw [PickSUICoinsWithGas_gas_zero]
    unfold PickCoins
    rw [sortedCoins_singleton]
    decide
  · intro cs hcs
    rw [PickSUICoinsWithGas_gas_zero] at hcs
    have h1 : (PickCoins pdqsort cs 0 pickMethod).1 = [] := congrArg Prod.fst hcs
    have h2 : (PickCoins pdqsort cs 0 pickMethod).2 = none :=
      congrArg (fun r => r.2.2) hcs
    exact PickCoins_ok_ne_nil pdqsort cs 0 pickMethod h2 h1

/-- C15. For every amount, every `gasAmount > 0` and every `pickMethod`:
`PickSUICoinsWithGas` on the empty collection fails with `ErrCoinsNeedMoreObject`,
which is not `ErrCoinsNotMatchRequest`, and returns no gas coin. -/
theorem PickSUICoinsWithGas_empty_collection
    (pdqsort : (Coin → Coin → Bool) → List Coin → List Coin)
    (amount : Int) (gasAmount : Nat) (pickMethod : Int) (hgas : 0 < gasAmount) :
    (PickSUICoinsWithGas pdqsort [] amount gasAmount pickMethod).2.2 =
      some Error.ErrCoinsNeedMoreObject ∧
    (PickSUICoinsWithGas pdqsort [] amount gasAmount pickMethod).2.2 ≠
      some Error.ErrCoinsNotMatchRequest ∧
    (PickSUICoinsWithGas pdqsort [] amount gasAmount pickMethod).2.1 = none := by
  rw [PickSUICoinsWithGas_empty pdqsort amount gasAmount pickMethod hgas]
  exact ⟨rfl, by decide, rfl⟩

/-- Witness of C15, the example of the specification: the empty collection with gas
amount 4. -/
theorem PickSUICoinsWithGas_empty_collection_witness :
    (PickSUICoinsWithGas insertionSortFunc [] 9 4 PickSmaller).2.2 =
      some Error.ErrCoinsNeedMoreObject ∧
    (PickSUICoinsWithGas insertionSortFunc [] 9 4 PickSmaller).2.2 ≠
      some Error.ErrCoinsNotMatchRequest ∧
    (PickSUICoinsWithGas insertionSortFunc [] 9 4 PickSmaller).2.1 = none :=
  PickSUICoinsWithGas_empty_collection insertionSortFunc 9 4 PickSmaller (by decide)

/-- C16. For every coin collection: `TotalBalance` is the sum of all coin balances,
0 for the empty collection, and it returns the same value on every permutation of
the collection. -/
theorem TotalBalance_sum_of_balances (cs : Coins) :
    TotalBalance cs = (cs.map Coin.Balance).sum ∧
    TotalBalance [] = 0 ∧
    ∀ cs' : Coins, cs'.Perm cs → TotalBalance cs' = TotalBalance cs := by
  refine ⟨TotalBalance_eq cs, rfl, ?_⟩
  intro cs' hp
  rw [TotalBalance_eq, TotalBalance_eq]
  exact balanceSum_perm hp

/-- C17. For every coin collection whose balances lie in `[0, 2^64)` and every
threshold `amount`: `PickCoinNoLess` succeeds if and only if some coin has balance
`≥ amount`; it then returns the coin at the least index whose balance is `≥ amount`;
and a coin it returns never has a balance below the threshold. -/
theorem PickCoinNoLess_first_match (cs : Coins) (amount : Nat)
    (hrange : ∀ c ∈ cs, 0 ≤ c.Balance ∧ c.Balance < 2 ^ 64) :
    ((PickCoinNoLess cs amount).2.1 = none ↔ ∃ c ∈ cs, (amount : Int) ≤ c.Balance) ∧
    ((PickCoinNoLess cs amount).2.1 = none →
      ∃ i, ∃ hi : i < cs.length,
        (PickCoinNoLess cs amount).1 = some cs[i] ∧ (amount : Int) ≤ cs[i].Balance ∧
        ∀ j, ∀ hj : j < cs.length, j < i → cs[j].Balance < amount) ∧
    ∀ c, (PickCoinNoLess cs amount).1 = some c → (amount : Int) ≤ c.Balance := by
  have hu : ∀ c ∈ cs, (uint64 c.Balance : Int) = c.Balance :=
    fun c hc => uint64_eq_of_range (hrange c hc).1 (hrange c hc).2
  rcases noLessLoop_spec amount cs 0 with ⟨hnone, hall⟩ | ⟨k, hk, hres, hqk, hfirst⟩
  · have hfail : (PickCoinNoLess cs amount).2.1 ≠ none ∧ (PickCoinNoLess cs amount).1 = none := by
      rw [PickCoinNoLess_no_match cs amount hnone]
      split <;> simp
    refine ⟨⟨fun h => absurd h hfail.1, ?_⟩, fun h => absurd h hfail.1, ?_⟩
    · rintro ⟨c, hc, hge⟩
      have h1 := hall c hc
      have h2 := hu c hc
      omega
    · intro c hc
      rw [hfail.2] at hc
      simp at hc
  · have hok := PickCoinNoLess_match cs amount cs[k] k (by simpa using hres)
    have hkge : (amount : Int) ≤ cs[k].Balance := by
      have := hu _ (List.getElem_mem hk)
      omega
    rw [hok]
    refine ⟨⟨fun _ => ⟨cs[k], List.getElem_mem hk, hkge⟩, fun _ => rfl⟩, ?_, ?_⟩
    · intro _
      refine ⟨k, hk, rfl, hkge, ?_⟩
      intro j hj hjk
      have h1 := hfirst j hj hjk
      have h2 := hu _ (List.getElem_mem hj)
      omega
    · intro c hc
      have : cs[k] = c := by simpa using hc
      rw [← this]
      exact hkge

/-- Witness of C17: in `[3, 7, 20, 7]` with threshold 5 the coin returned is the
first coin of balance 7, at index 1, not the largest. -/
theorem PickCoinNoLess_first_match_witness :
    (PickCoinNoLess [mkCoin 1 3, mkCoin 2 7, mkCoin 3 20, mkCoin 4 7] 5).1 =
      some (mkCoin 2 7) ∧
    (((PickCoinNoLess [mkCoin 1 3, mkCoin 2 7, mkCoin 3 20, mkCoin 4 7] 5).2.1 = none ↔
      ∃ c ∈ [mkCoin 1 3, mkCoin 2 7, mkCoin 3 20, mkCoin 4 7], ((5 : Nat) : Int) ≤ c.Balance) ∧
    ((PickCoinNoLess [mkCoin 1 3, mkCoin 2 7, mkCoin 3 20, mkCoin 4 7] 5).2.1 = none →
      ∃ i, ∃ hi : i < [mkCoin 1 3, mkCoin 2 7, mkCoin 3 20, mkCoin 4 7].length,
        (PickCoinNoLess [mkCoin 1 3, mkCoin 2 7, mkCoin 3 20, mkCoin 4 7] 5).1 =
          some [mkCoin 1 3, mkCoin 2 7, mkCoin 3 20, mkCoin 4 7][i] ∧
        ((5 : Nat) : Int) ≤ [mkCoin 1 3, mkCoin 2 7, mkCoin 3 20, mkCoin 4 7][i].Balance ∧
        ∀ j, ∀ hj : j < [mkCoin 1 3, mkCoin 2 7, mkCoin 3 20, mkCoin 4 7].length, j < i →
          [mkCoin 1 3, mkCoin 2 7, mkCoin 3 20, mkCoin 4 7][j].Balance < ((5 : Nat) : Int)) ∧
    ∀ c, (PickCoinNoLess [mkCoin 1 3, mkCoin 2 7, mkCoin 3 20, mkCoin 4 7] 5).1 = some c →
      ((5 : Nat) : Int) ≤ c.Balance) :=
  ⟨by decide,
    PickCoinNoLess_first_match [mkCoin 1 3, mkCoin 2 7, mkCoin 3 20, mkCoin 4 7] 5 (by decide)⟩

/-- C18, as stated, fails: the one coin of balance `-5` does not have a balance
`≥ 3`, so no coin qualifies for the threshold 3, yet `PickCoinNoLess` succeeds and
returns that coin, `Uint64()` of `-5` being 5; neither error is returned. -/
theorem PickCoinNoLess_returns_negative_balance :
    (∀ c ∈ [mkCoin 1 (-5)], ¬ ((3 : Nat) : Int) ≤ c.Balance) ∧
    [mkCoin 1 (-5)].length ≤ 3 ∧
    PickCoinNoLess [mkCoin 1 (-5)] 3 = (some (mkCoin 1 (-5)), none, [mkCoin 1 (-5)]) ∧
    (PickCoinNoLess [mkCoin 1 (-5)] 3).2.1 ≠ some (Error.New "insufficient balance") :=
  ⟨by decide, by decide, by decide, by decide⟩

/-- C18, amended. For every coin collection with non-negative balances and every
threshold `amount` such that no coin has balance `≥ amount`: `PickCoinNoLess` returns
no coin, its error is "insufficient balance" exactly when the collection has at most
3 coins, and it is the other error, "no coin is enough to cover the gas", exactly
when the collection has more than 3 coins. -/
theorem PickCoinNoLess_failure_kind (cs : Coins) (amount : Nat)
    (hbal : ∀ c ∈ cs, 0 ≤ c.Balance)
    (hno : ∀ c ∈ cs, ¬ (amount : Int) ≤ c.Balance) :
    (PickCoinNoLess cs amount).1 = none ∧
    ((PickCoinNoLess cs amount).2.1 = some (Error.New "insufficient balance") ↔
      cs.length ≤ 3) ∧
    ((PickCoinNoLess cs amount).2.1 = some (Error.New "no coin is enough to cover the gas") ↔
      3 < cs.length) ∧
    Error.New "insufficient balance" ≠ Error.New "no coin is enough to cover the gas" :=
  PickCoinNoLess_error_of_no_match cs amount
    (fun c hc => uint64_lt_of_nonneg_lt (hbal c hc) (by have := hno c hc; omega))

/-- Witness of C18 as amended, on four coins below the threshold 50 and on two. -/
theorem PickCoinNoLess_failure_kind_witness :
    (PickCoinNoLess [mkCoin 1 3, mkCoin 2 7, mkCoin 3 20, mkCoin 4 7] 50).2.1 =
      some (Error.New "no coin is enough to cover the gas") ∧
    (PickCoinNoLess [mkCoin 1 3, mkCoin 2 7] 50).2.1 =
      some (Error.New "insufficient balance") ∧
    ((PickCoinNoLess [mkCoin 1 3, mkCoin 2 7, mkCoin 3 20, mkCoin 4 7] 50).1 = none ∧
    ((PickCoinNoLess [mkCoin 1 3, mkCoin 2 7, mkCoin 3 20, mkCoin 4 7] 50).2.1 =
        some (Error.New "insufficient balance") ↔
      [mkCoin 1 3, mkCoin 2 7, mkCoin 3 20, mkCoin 4 7].length ≤ 3) ∧
    ((PickCoinNoLess [mkCoin 1 3, mkCoin 2 7, mkCoin 3 20, mkCoin 4 7] 50).2.1 =
        some (Error.New "no coin is enough to cover the gas") ↔
      3 < [mkCoin 1 3, mkCoin 2 7, mkCoin 3 20, mkCoin 4 7].length) ∧
    Error.New "insufficient balance" ≠ Error.New "no coin is enough to cover the gas") :=
  ⟨by decide, by decide,
    PickCoinNoLess_failure_kind [mkCoin 1 3, mkCoin 2 7, mkCoin 3 20, mkCoin 4 7] 50
      (by decide) (by decide)⟩

/-- C19, as stated, fails: on the empty collection with amount 0 `PickCoins` does
not succeed, it returns `nil, ErrCoinsNeedMoreObject`. -/
theorem PickCoins_empty_zero_fails :
    PickCoins insertionSortFunc [] 0 PickSmaller = ([], some Error.ErrCoinsNeedMoreObject) ∧
    (PickCoins insertionSortFunc [] 0 PickSmaller).2 ≠ none :=
  ⟨by decide, by decide⟩

/-- C19, amended. For every `pickMethod`: `PickCoins` on the empty collection with
amount 0, as with every other amount, fails: it returns a nil result and
`ErrCoinsNeedMoreObject`. -/
theorem PickCoins_empty_collection
    (pdqsort : (Coin → Coin → Bool) → List Coin → List Coin) (amount pickMethod : Int) :
    PickCoins pdqsort [] 0 pickMethod = ([], some Error.ErrCoinsNeedMoreObject) ∧
    PickCoins pdqsort [] amount pickMethod = ([], some Error.ErrCoinsNeedMoreObject) :=
  ⟨PickCoins_nil pdqsort 0 pickMethod, PickCoins_nil pdqsort amount pickMethod⟩

/-- C20. For every coin collection whose balances lie in `[0, 2^64)`, every amount
`> 0`, every `gasAmount > 0` and every `pickMethod`, the long-slice part of
`sort.Slice` permuting its input (`PermutesInput`): if some index `i` has
`balance_i ≥ gasAmount` while the balances at all other indices sum to at least
`amount`, then `PickSUICoinsWithGas` succeeds. -/
theorem PickSUICoinsWithGas_succeeds_when_satisfiable
    (pdqsort : (Coin → Coin → Bool) → List Coin → List Coin) (hperm : PermutesInput pdqsort)
    (cs : Coins) (amount : Int) (gasAmount : Nat) (pickMethod : Int)
    (hrange : ∀ c ∈ cs, 0 ≤ c.Balance ∧ c.Balance < 2 ^ 64)
    (hamount : 0 < amount) (hgas : 0 < gasAmount)
    (hex : ∃ i, ∃ hi : i < cs.length,
      (gasAmount : Int) ≤ cs[i].Balance ∧ amount ≤ balanceSum (cs.eraseIdx i)) :
    (PickSUICoinsWithGas pdqsort cs amount gasAmount pickMethod).2.2 = none := by
  obtain ⟨i, hi, hige, hisum⟩ := hex
  have hne : cs ≠ [] := by
    intro h
    rw [h] at hi
    simp at hi
  have hpi : passesGasFilter gasAmount cs[i] :=
    (passesGasFilter_iff_of_range gasAmount (hrange _ (List.getElem_mem hi)).1
      (hrange _ (List.getElem_mem hi)).2).2 hige
  rcases gasLoop_start gasAmount cs with ⟨hnone, _⟩ | ⟨k, hk, hres, _, hmin, _⟩
  · exact absurd hpi (hnone _ (List.getElem_mem hi))
  · rw [PickSUICoinsWithGas_found pdqsort cs amount gasAmount pickMethod hgas hne _ _ hres]
    have hle : cs[k].Balance ≤ cs[i].Balance := hmin _ (List.getElem_mem hi) hpi
    have hsum : amount ≤ balanceSum (cs.take k ++ cs.drop (k + 1)) := by
      have h1 := balanceSum_eraseIdx cs k hk
      have h2 := balanceSum_eraseIdx cs i hi
      rw [List.eraseIdx_eq_take_drop_succ] at h1
      omega
    have hbal : ∀ c ∈ cs.take k ++ cs.drop (k + 1), 0 ≤ c.Balance := by
      intro c hc
      rcases List.mem_append.1 hc with h | h
      · exact (hrange c (List.mem_of_mem_take h)).1
      · exact (hrange c (List.mem_of_mem_drop h)).1
    by_contra hfail
    have := (PickCoins_fails_iff hperm _ amount pickMethod hbal hamount).1 hfail
    omega

/-- Witness of C20: in `[3, 7, 20]` with amount 10 and gas amount 6, the coin of
balance 20 could pay the gas while `3 + 7` covers the amount; the call reserves the
coin of balance 7 and still succeeds. -/
theorem PickSUICoinsWithGas_succeeds_when_satisfiable_witness :
    PickSUICoinsWithGas insertionSortFunc [mkCoin 1 3, mkCoin 2 7, mkCoin 3 20] 10 6
      PickSmaller = ([mkCoin 1 3, mkCoin 3 20], some (mkCoin 2 7), none) ∧
    (PickSUICoinsWithGas insertionSortFunc [mkCoin 1 3, mkCoin 2 7, mkCoin 3 20] 10 6
      PickSmaller).2.2 = none :=
  ⟨by decide,
    PickSUICoinsWithGas_succeeds_when_satisfiable insertionSortFunc insertionSortFunc_permutes
      [mkCoin 1 3, mkCoin 2 7, mkCoin 3 20] 10 6 PickSmaller (by decide) (by decide) (by decide)
      ⟨2, by decide, by decide, by decide⟩⟩

end GoSui
